import Mathlib

/-!
Verification development for the SecurityRota scheduling engine
(`rota_system.py`).

The Python source is shallowly embedded below:

* pure helper functions (`calculate_shift_hours`, `estimate_distance`)
  become Lean functions returning `Option` (a `none` result models a
  Python exception escaping the function);
* floating-point hour arithmetic is modelled with exact rationals `ℚ`
  (every quantity involved is a small fraction with denominator 60, and
  the engine compares and adds the very values it stores, so the exact
  model matches the float code on all inputs considered here);
* the mutable `ScheduleGenerator` object becomes a `GenState` record
  threaded through explicit recursive drivers; Python dicts keyed by
  employee id become total functions out of `Nat` (the source
  initialises a key for every employee before use, and iteration order
  over the dicts is recovered from the employee list, matching Python's
  insertion-ordered dicts);
* `list.sort(key=...)`, which is a stable sort, is embedded as
  `List.insertionSort` with the "key-less-or-equal" relation: a stable
  sort's output is uniquely determined by the comparator, so any stable
  sorting algorithm is an exact model;
* Python's `str.split(':')` and `int(...)` on the time strings are
  modelled at the character-list level (`splitOnColon`, `parseDigits`);
  `int` is modelled on strings of decimal digits, which covers every
  well-formed `"HH:MM"` component;
* the float literal `0.9` and the `:.1f` format specifiers occur only
  in advisory warning/success alert messages; they are modelled with
  exact rational arithmetic and a decimal formatting helper.
-/

/-! ### Time parsing (`start_time.split(':')`, `int(...)`) -/

/-- Splits a character list at every colon, keeping empty segments,
exactly like Python's `str.split(':')`. The accumulator holds the
current segment reversed. -/
def splitOnColon : List Char → List Char → List (List Char)
  | [], acc => [acc.reverse]
  | c :: cs, acc =>
    if c = ':' then acc.reverse :: splitOnColon cs [] else splitOnColon cs (c :: acc)

/-- Accumulator loop for decimal-digit parsing. -/
def parseDigitsCore : List Char → Nat → Option Nat
  | [], acc => some acc
  | c :: cs, acc =>
    if c.isDigit then parseDigitsCore cs (acc * 10 + (c.toNat - 48)) else none

/-- Python's `int(s)` restricted to nonempty strings of decimal digits;
any other input raises (`none`), as `int` does on empty or
non-numeric strings. -/
def parseDigits : List Char → Option Nat
  | [] => none
  | c :: cs => parseDigitsCore (c :: cs) 0

/-- Model of `h, m = map(int, t.split(':'))` followed by `h * 60 + m`:
the minutes-since-midnight reading of a `"HH:MM"` string. `none` models
the `ValueError` Python raises when the string does not have exactly two
integer fields. -/
def timeToMinutes (t : String) : Option Nat :=
  match splitOnColon t.data [] with
  | [h, m] =>
    match parseDigits h, parseDigits m with
    | some hv, some mv => some (hv * 60 + mv)
    | _, _ => none
  | _ => none

/-- Model of `calculate_shift_hours` (rota_system.py:91-102): convert both
times to minutes, add a day when the end is at or before the start, and
return the difference in hours. -/
def calculate_shift_hours (start_time end_time : String) : Option ℚ :=
  match timeToMinutes start_time, timeToMinutes end_time with
  | some start_minutes, some end_minutes =>
    let e := if end_minutes ≤ start_minutes then end_minutes + 24 * 60 else end_minutes
    some (((e : ℚ) - (start_minutes : ℚ)) / 60)
  | _, _ => none

/-! ### Distance estimation (`estimate_distance`) -/

/-- Model of `''.join(filter(str.isalpha, postcode[:3])).upper()`
(rota_system.py:109-110): the uppercased alphabetic characters among the
first three characters of the code. -/
def areaTag (p : String) : List Char :=
  ((p.data.take 3).filter Char.isAlpha).map Char.toUpper

/-- Modelled from the spec: "Extract the leading alphabetic run (up to the
first 3 characters) of each code, uppercase it" — the *leading* run,
stopping at the first non-letter. Used only to compare the spec's area
tag with the source's `areaTag`. -/
def specAreaTag (p : String) : List Char :=
  ((p.data.take 3).takeWhile Char.isAlpha).map Char.toUpper

/-- Model of `estimate_distance` (rota_system.py:104-117). `none` models
the `IndexError` raised by `area1[0]`/`area2[0]` when the tags differ and
one of them is empty. -/
def estimate_distance (postcode1 postcode2 : String) : Option Nat :=
  if postcode1 = "" ∨ postcode2 = "" then some 999
  else
    let area1 := areaTag postcode1
    let area2 := areaTag postcode2
    if area1 = area2 then some 5
    else
      match area1, area2 with
      | c1 :: _, c2 :: _ => some (if c1 = c2 then 25 else 50)
      | _, _ => none

/-! ### Data model -/

/-- Employee record (the dicts stored in `st.session_state.employees`). -/
structure Employee where
  id : Nat
  name : String
  phone : String
  postcode : String
  sia_license : String
  max_hours : ℚ
  availability : List String
  willing_24hr : Bool
deriving DecidableEq

/-- Site record (the dicts stored in `st.session_state.sites`). -/
structure Site where
  id : Nat
  name : String
  client : String
  postcode : String
  guards_required : Nat
  shift_start : String
  shift_end : String
  days_operation : List String
deriving DecidableEq

/-- One assignment entry appended to `self.schedule[emp_id][day]`
(rota_system.py:185-193). -/
structure Shift where
  site_id : Nat
  site_name : String
  client : String
  postcode : String
  start : String
  «end» : String
  hours : ℚ
deriving DecidableEq

/-- Alert record: severity tag (`"error"`, `"warning"` or `"success"`)
and message. -/
structure Alert where
  type : String
  message : String
deriving DecidableEq

/-- Understaffing record appended to `self.unassigned_shifts`
(rota_system.py:199-204). -/
structure UnassignedShift where
  day : String
  site : String
  required : Nat
  assigned : Nat
deriving DecidableEq

/-- 24-hour-opportunity record (rota_system.py:237-243). -/
structure Opportunity where
  employee : String
  day : String
  site1 : String
  site2 : String
  distance : Nat
deriving DecidableEq

/-- Candidate entry built in `_assign_day`
(rota_system.py:173-177): the employee together with the distance and the
workload recorded at candidate-build time. -/
structure Candidate where
  emp : Employee
  distance : Nat
  workload : ℚ
deriving DecidableEq

/-! ### Engine state (`ScheduleGenerator` instance attributes) -/

/-- The mutable attributes of a `ScheduleGenerator` during one run.
`schedule` and `employee_hours` model the Python dicts keyed by employee
id: the source initialises an entry for every employee before any use,
so total functions (with the dict's initial values as defaults) are an
exact model of every lookup the engine performs. -/
structure GenState where
  schedule : Nat → String → List Shift
  employee_hours : Nat → ℚ
  alerts : List Alert
  unassigned_shifts : List UnassignedShift
  opportunities_24hr : List Opportunity

/-- The canonical week, `self.days` (rota_system.py:122). -/
def weekDays : List String :=
  ["Monday", "Tuesday", "Wednesday", "Thursday", "Friday", "Saturday", "Sunday"]

/-- The consecutive-day pairs scanned by the opportunity detector:
`enumerate(self.days[:-1])` pairs each of the first six days with its
successor; Sunday–Monday is not formed. -/
def dayPairs : List (String × String) := weekDays.zip weekDays.tail

/-- Iteration order of the `employee_hours` / `schedule` dicts: employee
ids in first-occurrence order (Python dicts preserve insertion order and
ignore re-insertions of an existing key). -/
def empKeys (employees : List Employee) : List Nat :=
  (employees.map Employee.id).dedup

/-- State at the start of `generate`: every ledger entry 0, every
schedule slot empty, all output lists empty (rota_system.py:123-127 and
139-141). -/
def initState : GenState :=
  { schedule := fun _ _ => [], employee_hours := fun _ => 0,
    alerts := [], unassigned_shifts := [], opportunities_24hr := [] }

/-! ### Sorting comparators

Python's `list.sort` is a stable sort; a stable sort's output is uniquely
determined by the comparator "key of `a` ≤ key of `b`", so
`List.insertionSort` (which is stable) with that comparator is an exact
model of `list.sort(key=...)`. -/

/-- Comparator for `day_sites.sort(key=lambda x: x['guards_required'],
reverse=True)`: descending by required guard count (stable descending
sort = stable ascending sort by the reversed comparison). -/
def siteGE (a b : Site) : Prop := b.guards_required ≤ a.guards_required

instance : DecidableRel siteGE := fun _ _ => Nat.decLe _ _

instance : IsTotal Site siteGE :=
  ⟨fun a b => (Nat.le_total a.guards_required b.guards_required).symm⟩

instance : IsTrans Site siteGE :=
  ⟨fun _ _ _ h1 h2 => Nat.le_trans h2 h1⟩

/-- Comparator for `available_employees.sort(key=lambda x: (x['workload'],
x['distance']))`: ascending lexicographic tuple comparison. -/
def candLE (a b : Candidate) : Prop :=
  a.workload < b.workload ∨ (a.workload = b.workload ∧ a.distance ≤ b.distance)

instance : DecidableRel candLE := fun _ _ => inferInstanceAs (Decidable (_ ∨ _))

instance : IsTotal Candidate candLE := ⟨by
  intro a b
  rcases lt_trichotomy a.workload b.workload with h | h | h
  · exact Or.inl (Or.inl h)
  · rcases Nat.le_total a.distance b.distance with hd | hd
    · exact Or.inl (Or.inr ⟨h, hd⟩)
    · exact Or.inr (Or.inr ⟨h.symm, hd⟩)
  · exact Or.inr (Or.inl h)⟩

instance : IsTrans Candidate candLE := ⟨by
  intro a b c hab hbc
  rcases hab with h1 | ⟨e1, d1⟩
  · rcases hbc with h2 | ⟨e2, d2⟩
    · exact Or.inl (h1.trans h2)
    · exact Or.inl (lt_of_lt_of_le h1 (le_of_eq e2))
  · rcases hbc with h2 | ⟨e2, d2⟩
    · exact Or.inl (lt_of_le_of_lt (le_of_eq e1) h2)
    · exact Or.inr ⟨e1.trans e2, d1.trans d2⟩⟩

/-! ### Day assignment (`_assign_day`, rota_system.py:152-216) -/

/-- Sites operating on `day`, ordered by required guard count descending,
ties in input order (rota_system.py:154-155). -/
def daySites (sites : List Site) (day : String) : List Site :=
  List.insertionSort siteGE (sites.filter (fun s => decide (day ∈ s.days_operation)))

/-- The candidate pool for one site on one day (rota_system.py:162-168):
employees available that day, whose ledger plus this shift's hours does
not exceed their cap, and with no assignment yet that day. The three
tests appear in the source's order. -/
def candFilter (employees : List Employee) (day : String) (shift_hours : ℚ)
    (st : GenState) : List Employee :=
  employees.filter (fun emp =>
    decide (day ∈ emp.availability) &&
    !decide (st.employee_hours emp.id + shift_hours > emp.max_hours) &&
    decide (st.schedule emp.id day = []))

/-- Builds the `available_employees` records (rota_system.py:170-177),
pairing each pool member with its distance to the site and its current
ledger hours. `none` models the `IndexError` `estimate_distance` can
raise. -/
def buildCandidates (site : Site) (st : GenState) : List Employee → Option (List Candidate)
  | [] => some []
  | emp :: rest =>
    match estimate_distance emp.postcode site.postcode with
    | none => none
    | some dist =>
      match buildCandidates site st rest with
      | none => none
      | some cs => some (⟨emp, dist, st.employee_hours emp.id⟩ :: cs)

/-- `available_employees.sort(key=lambda x: (x['workload'], x['distance']))`
(rota_system.py:179). -/
def rankCandidates (cands : List Candidate) : List Candidate :=
  List.insertionSort candLE cands

/-- The candidates actually assigned: the first
`min(site['guards_required'], len(available_employees))` of the ranked
list (rota_system.py:181-182). -/
def chooseCandidates (k : Nat) (cands : List Candidate) : List Candidate :=
  (rankCandidates cands).take k

/-- The assignment record appended to the schedule
(rota_system.py:185-193). -/
def mkShift (site : Site) (shift_hours : ℚ) : Shift :=
  ⟨site.id, site.name, site.client, site.postcode,
    site.shift_start, site.shift_end, shift_hours⟩

/-- One assignment: append the shift to the employee's slot for the day
and add the shift hours to the ledger (rota_system.py:185-196). -/
def assignOne (site : Site) (day : String) (shift_hours : ℚ)
    (st : GenState) (c : Candidate) : GenState :=
  { st with
    schedule := fun i =>
      if i = c.emp.id then fun d =>
        if d = day then st.schedule i d ++ [mkShift site shift_hours]
        else st.schedule i d
      else st.schedule i,
    employee_hours := fun i =>
      if i = c.emp.id then st.employee_hours i + shift_hours
      else st.employee_hours i }

/-- The error alert recorded with an `UnassignedShift`
(rota_system.py:205-208). -/
def errAlertOf (u : UnassignedShift) : Alert :=
  ⟨"error", u.site ++ " on " ++ u.day ++ ": Only " ++ toString u.assigned ++
    "/" ++ toString u.required ++ " guards assigned"⟩

/-- Processes one site within a day (body of the `for site in day_sites`
loop, rota_system.py:157-208): build and rank candidates, assign the top
ones, and record understaffing. -/
def processSite (employees : List Employee) (day : String)
    (st : GenState) (site : Site) : Option GenState :=
  match calculate_shift_hours site.shift_start site.shift_end with
  | none => none
  | some shift_hours =>
    match buildCandidates site st (candFilter employees day shift_hours st) with
    | none => none
    | some cands =>
      let chosen := chooseCandidates site.guards_required cands
      let st1 := chosen.foldl (assignOne site day shift_hours) st
      some (if chosen.length < site.guards_required then
        { st1 with
          unassigned_shifts := st1.unassigned_shifts ++
            [⟨day, site.name, site.guards_required, chosen.length⟩],
          alerts := st1.alerts ++
            [errAlertOf ⟨day, site.name, site.guards_required, chosen.length⟩] }
      else st1)

/-- The `for site in day_sites` loop. -/
def processSites (employees : List Employee) (day : String) :
    List Site → GenState → Option GenState
  | [], st => some st
  | s :: rest, st =>
    match processSite employees day st s with
    | none => none
    | some st1 => processSites employees day rest st1

/-- Decimal formatting with one digit after the point, modelling
Python's `f"{x:.1f}"` on the nonnegative rationals that reach it
(binary-float rounding noise aside, which no claim depends on). -/
def fmtTenths (q : ℚ) : String :=
  toString (round (q * 10) / 10 : ℤ) ++ "." ++ toString (round (q * 10) % 10 : ℤ)

/-- Formatting of `f"{emp['max_hours']}"`: integers print bare, other
values through the decimal helper. -/
def fmtHoursCap (q : ℚ) : String :=
  if q.den = 1 then toString q.num else fmtTenths q

/-- The 90%-of-cap warning alert (rota_system.py:213-216). -/
def warnAlertOf (emp : Employee) (hours : ℚ) : Alert :=
  ⟨"warning", emp.name ++ ": " ++ fmtTenths hours ++ "/" ++
    fmtHoursCap emp.max_hours ++ " hours (" ++
    fmtTenths (hours / emp.max_hours * 100) ++ "%)"⟩

/-- Body of the ledger scan closing `_assign_day`
(rota_system.py:210-216): look the employee up by id and append a
warning when the ledger exceeds 90% of the cap. -/
def warnStep (employees : List Employee) (st : GenState) (empId : Nat) : GenState :=
  match employees.find? (fun e => e.id == empId) with
  | none => st
  | some emp =>
    if st.employee_hours empId > emp.max_hours * (9 / 10) then
      { st with alerts := st.alerts ++ [warnAlertOf emp (st.employee_hours empId)] }
    else st

/-- The `for emp_id, hours in self.employee_hours.items()` scan. -/
def warningPass (employees : List Employee) (st : GenState) : GenState :=
  (empKeys employees).foldl (warnStep employees) st

/-- `_assign_day` (rota_system.py:152-216): process every operating site
for the day, then run the warning scan. -/
def assign_day (employees : List Employee) (sites : List Site) (day : String)
    (st : GenState) : Option GenState :=
  match processSites employees day (daySites sites day) st with
  | none => none
  | some st1 => some (warningPass employees st1)

/-- The `for day in self.days` loop of `generate`. -/
def processDays (employees : List Employee) (sites : List Site) :
    List String → GenState → Option GenState
  | [], st => some st
  | d :: rest, st =>
    match assign_day employees sites d st with
    | none => none
    | some st1 => processDays employees sites rest st1

/-! ### 24-hour opportunity detection
(`_identify_24hr_opportunities`, rota_system.py:218-248) -/

/-- Python's `f"{distance:.1f}"` where `distance` is the integer result
of `estimate_distance`. -/
def fmtNatTenths (n : Nat) : String := toString n ++ ".0"

/-- The success alert recorded with an opportunity
(rota_system.py:245-248). -/
def oppAlertOf (o : Opportunity) : Alert :=
  ⟨"success", "24hr Opportunity: " ++ o.employee ++ " - " ++ o.site1 ++
    " to " ++ o.site2 ++ " (" ++ fmtNatTenths o.distance ++ " miles)"⟩

/-- Examines one consecutive-day pair for one employee
(rota_system.py:229-248): record an opportunity when both days hold
exactly one shift, the first ends when the second starts, and the sites
are within distance 30. -/
def checkPair (emp : Employee) (day1 day2 : String) (st : GenState) : Option GenState :=
  match st.schedule emp.id day1, st.schedule emp.id day2 with
  | [today], [tomorrow] =>
    if today.«end» = tomorrow.start then
      match estimate_distance today.postcode tomorrow.postcode with
      | none => none
      | some dist =>
        if dist ≤ 30 then
          some { st with
            opportunities_24hr := st.opportunities_24hr ++
              [⟨emp.name, day1 ++ "-" ++ day2, today.site_name, tomorrow.site_name, dist⟩],
            alerts := st.alerts ++
              [oppAlertOf ⟨emp.name, day1 ++ "-" ++ day2,
                today.site_name, tomorrow.site_name, dist⟩] }
        else some st
    else some st
  | _, _ => some st

/-- The `for i, day in enumerate(self.days[:-1])` loop for one employee. -/
def checkPairs (emp : Employee) : List (String × String) → GenState → Option GenState
  | [], st => some st
  | p :: rest, st =>
    match checkPair emp p.1 p.2 st with
    | none => none
    | some st1 => checkPairs emp rest st1

/-- The `for emp_id, week_schedule in self.schedule.items()` loop: skip
unknown or unwilling employees, otherwise scan the six day pairs. -/
def identifyEmps (employees : List Employee) : List Nat → GenState → Option GenState
  | [], st => some st
  | i :: rest, st =>
    match employees.find? (fun e => e.id == i) with
    | none => identifyEmps employees rest st
    | some emp =>
      if emp.willing_24hr then
        match checkPairs emp dayPairs st with
        | none => none
        | some st1 => identifyEmps employees rest st1
      else identifyEmps employees rest st

/-- `_identify_24hr_opportunities` (rota_system.py:218-248). -/
def identify_24hr_opportunities (employees : List Employee) (st : GenState) :
    Option GenState :=
  identifyEmps employees (empKeys employees) st

/-! ### The weekly scheduler (`generate`, rota_system.py:134-150) -/

/-- The four outputs of one engine run: the week's schedule, the alert
list in emission order, the unassigned-shift list and the opportunity
list. -/
structure GenOutput where
  schedule : Nat → String → List Shift
  alerts : List Alert
  unassigned_shifts : List UnassignedShift
  opportunities_24hr : List Opportunity

/-- `ScheduleGenerator.generate`: run the seven days in order, then the
opportunity detector, and return the results. -/
def generate (employees : List Employee) (sites : List Site) : Option GenOutput :=
  match processDays employees sites weekDays initState with
  | none => none
  | some st =>
    match identify_24hr_opportunities employees st with
    | none => none
    | some st1 => some ⟨st1.schedule, st1.alerts, st1.unassigned_shifts, st1.opportunities_24hr⟩

/-- A full run as launched by the UI: `ScheduleGenerator(week_start)`
followed by `.generate()`. The constructor stores `week_start_date`
(rota_system.py:120-121) but no scheduling code ever reads it, which the
definition makes explicit by ignoring the argument. -/
def runSchedule (week_start : String) (employees : List Employee) (sites : List Site) :
    Option GenOutput :=
  generate employees sites

/-! ### Derived measures used by the claims -/

/-- Total assigned hours recorded in the schedule for employee id `i`
over the canonical week. -/
def weekHours (sched : Nat → String → List Shift) (i : Nat) : ℚ :=
  (weekDays.map (fun d => ((sched i d).map Shift.hours).sum)).sum

/-- Number of assignments held in the schedule for site id `siteId` on
`day`, summed over the employee list. -/
def asgCount (employees : List Employee) (sched : Nat → String → List Shift)
    (day : String) (siteId : Nat) : Nat :=
  (employees.map (fun e => ((sched e.id day).filter (fun x => x.site_id == siteId)).length)).sum

/-! ### Run invariants -/

/-- Every employee's ledger is within their cap. -/
def HoursInv (employees : List Employee) (st : GenState) : Prop :=
  ∀ e ∈ employees, st.employee_hours e.id ≤ e.max_hours

/-- Every employee's ledger equals the week's total of their scheduled
shift hours. -/
def SumInv (employees : List Employee) (st : GenState) : Prop :=
  ∀ e ∈ employees, st.employee_hours e.id = weekHours st.schedule e.id

/-- Every employee holds at most one assignment per day. -/
def LenInv (employees : List Employee) (st : GenState) : Prop :=
  ∀ e ∈ employees, ∀ d, (st.schedule e.id d).length ≤ 1

/-- Every scheduled shift carries the postcode of some input site. -/
def SchedSrc (sites : List Site) (st : GenState) : Prop :=
  ∀ i d, ∀ x ∈ st.schedule i d, ∃ s ∈ sites, x.postcode = s.postcode

/-- The error alerts are exactly the understaffing records' alerts, in
order. -/
def ErrInv (st : GenState) : Prop :=
  st.alerts.filter (fun a => a.type == "error") =
    st.unassigned_shifts.map errAlertOf

/-! ### Predicates used to state claims C3 and C8 -/

/-- Key of the understaffing record for one (day, site-name) pair. -/
def sitePred (d : String) (name : String) : UnassignedShift → Bool :=
  fun u => u.day == d && u.site == name

/-- Claim C3's target property at one (day, site) pair: the assignment
count is within the requirement, and the understaffing record (with the
exact required and assigned counts) is present exactly on a shortfall. -/
def C3At (employees : List Employee) (d : String) (s : Site) (st : GenState) : Prop :=
  asgCount employees st.schedule d s.id ≤ s.guards_required ∧
  st.unassigned_shifts.filter (sitePred d s.name) =
    (if asgCount employees st.schedule d s.id < s.guards_required then
      [⟨d, s.name, s.guards_required, asgCount employees st.schedule d s.id⟩]
    else [])

/-- No assignments and no understaffing record yet for a (day, site)
pair. -/
def C3Fresh (employees : List Employee) (d : String) (s : Site) (st : GenState) : Prop :=
  asgCount employees st.schedule d s.id = 0 ∧
  st.unassigned_shifts.filter (sitePred d s.name) = []

/-- The day-pair label recorded in an opportunity. -/
def pairLabel (p : String × String) : String := p.1 ++ "-" ++ p.2

/-- Condition under which the detector records an opportunity for an
employee on a consecutive-day pair: exactly one shift each day, the
first ending when the second starts, within distance 30. -/
def OppCond (st : GenState) (e : Employee) (p : String × String) : Prop :=
  ∃ t tm dist, st.schedule e.id p.1 = [t] ∧ st.schedule e.id p.2 = [tm] ∧
    t.«end» = tm.start ∧ estimate_distance t.postcode tm.postcode = some dist ∧
    dist ≤ 30

/-- Count of recorded opportunities attributed to employee name `n` on
day-pair label `lbl`. -/
def oppCount (n lbl : String) (os : List Opportunity) : Nat :=
  (os.filter (fun o => o.employee == n && o.day == lbl)).length

/-! ### Concrete run fixtures used by witnesses -/

/-- A willing employee for the opportunity-detector example. -/
def wEmp : Employee :=
  ⟨1, "John Smith", "07700 123456", "LE1 1AA", "SIA123456", 48,
    ["Monday", "Tuesday"], true⟩

/-- Monday's shift in the example, ending at 06:00. -/
def wShiftA : Shift := ⟨10, "SiteA", "Taz", "LE2 3AB", "18:00", "06:00", 12⟩

/-- Tuesday's shift in the example, starting at 06:00 nearby. -/
def wShiftB : Shift := ⟨11, "SiteB", "Taz", "LE9 1CD", "06:00", "18:00", 12⟩

/-- The example schedule: one employee, back-to-back shifts on
Monday and Tuesday. -/
def wSched : Nat → String → List Shift := fun i d =>
  if i = 1 then
    (if d = "Monday" then [wShiftA] else if d = "Tuesday" then [wShiftB] else [])
  else []

/-- The example state fed to the opportunity detector. -/
def wState : GenState := ⟨wSched, fun _ => 0, [], [], []⟩

/-- The opportunity the detector records on the example. -/
def wOpp : Opportunity := ⟨"John Smith", "Monday-Tuesday", "SiteA", "SiteB", 5⟩

/-- The state after the detector runs on the example. -/
def wStateOut : GenState := ⟨wSched, fun _ => 0, [oppAlertOf wOpp], [], [wOpp]⟩

/-- The empty output of a run with no sites. -/
def wOut : GenOutput := ⟨fun _ _ => [], [], [], []⟩

/-- A second, unwilling employee used by witnesses. -/
def wEmp2 : Employee :=
  ⟨1, "Sarah Wilson", "07700 789012", "NN18 8BB", "SIA789012", 40,
    ["Monday", "Tuesday"], false⟩

/-- Witness sites: a high-demand Monday site between two tied
single-guard sites. -/
def wSite1 : Site := ⟨1, "A", "c", "LE1", 1, "18:00", "06:00", ["Monday"]⟩

/-- Witness site needing three guards. -/
def wSite2 : Site := ⟨2, "B", "c", "LE2", 3, "18:00", "06:00", ["Monday"]⟩

/-- Witness site operating on Tuesday only. -/
def wSite3 : Site := ⟨3, "C", "c", "LE3", 1, "18:00", "06:00", ["Tuesday"]⟩

/-! ### Helper lemmas about the leaf functions -/

/-- Closed form of `calculate_shift_hours` on any pair of parseable time
strings. -/
theorem calc_hours_eq (s e : String) (sm em : Nat)
    (hs : timeToMinutes s = some sm) (he : timeToMinutes e = some em) :
    calculate_shift_hours s e =
      some (((if em ≤ sm then (em : ℚ) + 1440 else (em : ℚ)) - (sm : ℚ)) / 60) := by
  unfold calculate_shift_hours
  rw [hs, he]
  have hcast : ((if em ≤ sm then em + 24 * 60 else em : Nat) : ℚ) =
      (if em ≤ sm then (em : ℚ) + 1440 else (em : ℚ)) := by
    split <;> push_cast <;> norm_num
  simp only [hcast]

/-! ### Claim C4 — shift duration calculator -/

/-- C4: for parseable start/end time strings the calculator converts each
to minutes-since-midnight, adds 1440 minutes to the end when
end ≤ start, and returns the difference divided by 60; in particular
`duration("18:00","06:00") = 12`, `duration("09:00","17:00") = 8` and
`duration("08:00","08:00") = 24`. -/
theorem claim_c4_shift_duration :
    (∀ s e sm em, timeToMinutes s = some sm → timeToMinutes e = some em →
      calculate_shift_hours s e =
        some (((if em ≤ sm then (em : ℚ) + 1440 else (em : ℚ)) - (sm : ℚ)) / 60)) ∧
    calculate_shift_hours "18:00" "06:00" = some 12 ∧
    calculate_shift_hours "09:00" "17:00" = some 8 ∧
    calculate_shift_hours "08:00" "08:00" = some 24 := by
  refine ⟨calc_hours_eq, ?_, ?_, ?_⟩ <;> with_unfolding_all decide

/-- Witness for C4: the general clause applied at the concrete overnight
shift 18:00–06:00, whose components parse to 1080 and 360 minutes. -/
theorem claim_c4_shift_duration_witness :
    calculate_shift_hours "18:00" "06:00" =
      some (((if 360 ≤ 1080 then ((360 : Nat) : ℚ) + 1440 else ((360 : Nat) : ℚ)) -
        ((1080 : Nat) : ℚ)) / 60) :=
  claim_c4_shift_duration.1 "18:00" "06:00" 1080 360 rfl rfl

/-! ### Claim C10 — duration always in (0, 24] -/

/-- C10: for well-formed time strings (parseable, with value below 1440
minutes, as any `"HH:MM"` with hour ≤ 23 and minute ≤ 59 is) the computed
duration is strictly positive and at most 24 hours. -/
theorem claim_c10_duration_range :
    ∀ s e sm em, timeToMinutes s = some sm → timeToMinutes e = some em →
      sm < 1440 → em < 1440 →
      ∃ d, calculate_shift_hours s e = some d ∧ 0 < d ∧ d ≤ 24 := by
  intro s e sm em hs he hsm hem
  refine ⟨_, calc_hours_eq s e sm em hs he, ?_, ?_⟩
  · have h60 : (0 : ℚ) < 60 := by norm_num
    apply div_pos _ h60
    have hsm' : (sm : ℚ) < 1440 := by exact_mod_cast hsm
    have hem' : (0 : ℚ) ≤ (em : ℚ) := Nat.cast_nonneg em
    split
    · linarith
    · rename_i h
      have : (sm : ℚ) < (em : ℚ) := by exact_mod_cast Nat.lt_of_not_le h
      linarith
  · have h60 : (0 : ℚ) < 60 := by norm_num
    rw [div_le_iff₀ h60]
    have hem' : (em : ℚ) < 1440 := by exact_mod_cast hem
    have hsm' : (0 : ℚ) ≤ (sm : ℚ) := Nat.cast_nonneg sm
    split
    · rename_i h
      have : (em : ℚ) ≤ (sm : ℚ) := by exact_mod_cast h
      linarith
    · linarith

/-- Witness for C10 at the overnight pair 18:00–06:00. -/
theorem claim_c10_duration_range_witness :
    ∃ d, calculate_shift_hours "18:00" "06:00" = some d ∧ 0 < d ∧ d ≤ 24 :=
  claim_c10_duration_range "18:00" "06:00" 1080 360 rfl rfl
    (by norm_num) (by norm_num)

/-! ### Claim C5 — distance estimator -/

/-- Counterexample to C5 as stated. First, the estimator is not
error-free: on `("123", "ABC")` the tags are `[]` and `['A','B','C']`, so
the code reaches `area1[0]` on an empty string and raises an
`IndexError` (`none`), where the claim promises a numeric result.
Second, the claim's "leading alphabetic run" tag is wrong: on
`("A1B2", "AB99")` the leading runs are `"A"` and `"AB"` — different,
with matching first letters, so the claim predicts 25 — but the code
collects *all* letters among the first three characters, getting `"AB"`
twice, and returns 5. -/
theorem claim_c5_distance_counterexample :
    estimate_distance "123" "ABC" = none ∧
    estimate_distance "A1B2" "AB99" = some 5 ∧
    specAreaTag "A1B2" ≠ specAreaTag "AB99" ∧
    (specAreaTag "A1B2").head? = (specAreaTag "AB99").head? := by
  refine ⟨?_, ?_, ?_, ?_⟩ <;> decide

/-- C5 amended: the estimator returns 999 when either code is empty;
otherwise, with each code's area tag defined as the uppercased
alphabetic characters among its first 3 characters (not the leading
run), it returns 5 when the tags are identical; when they differ and
both are nonempty it returns 25 or 50 by whether the first letters
match; and when they differ with one of them empty it raises an
`IndexError` instead of returning. -/
theorem claim_c5_distance_amended : ∀ p q : String,
    (p = "" ∨ q = "" → estimate_distance p q = some 999) ∧
    (p ≠ "" → q ≠ "" → areaTag p = areaTag q → estimate_distance p q = some 5) ∧
    (p ≠ "" → q ≠ "" → areaTag p ≠ areaTag q →
      ∀ c1 t1 c2 t2, areaTag p = c1 :: t1 → areaTag q = c2 :: t2 →
        estimate_distance p q = some (if c1 = c2 then 25 else 50)) ∧
    (p ≠ "" → q ≠ "" → areaTag p ≠ areaTag q →
      (areaTag p = [] ∨ areaTag q = []) → estimate_distance p q = none) := by
  intro p q
  refine ⟨?_, ?_, ?_, ?_⟩
  · intro h
    rw [estimate_distance, if_pos h]
  · intro hp hq heq
    rw [estimate_distance, if_neg (by tauto)]
    simp [heq]
  · intro hp hq hne c1 t1 c2 t2 h1 h2
    rw [estimate_distance, if_neg (by tauto)]
    rw [h1, h2] at hne
    simp only [h1, h2, if_neg hne]
  · intro hp hq hne hemp
    rw [estimate_distance, if_neg (by tauto)]
    simp only [if_neg hne]
    rcases hemp with h | h
    · rw [h]
    · rw [h]
      cases hp' : areaTag p <;> rfl

/-- Witness for the amended C5, exercising all four clauses at concrete
inputs: an empty code, two codes in the same area, two codes in
different regions, and a letterless code against a lettered one. -/
theorem claim_c5_distance_amended_witness :
    estimate_distance "" "LE1 1AA" = some 999 ∧
    estimate_distance "LE1 1AA" "LE2 2BB" = some 5 ∧
    estimate_distance "LE1 1AA" "NN18 8BB" = some (if 'L' = 'N' then 25 else 50) ∧
    estimate_distance "9" "ABC" = none :=
  ⟨(claim_c5_distance_amended "" "LE1 1AA").1 (Or.inl rfl),
   (claim_c5_distance_amended "LE1 1AA" "LE2 2BB").2.1 (by decide) (by decide) (by decide),
   (claim_c5_distance_amended "LE1 1AA" "NN18 8BB").2.2.1 (by decide) (by decide)
     (by decide) 'L' ['E'] 'N' ['N'] (by decide) (by decide),
   (claim_c5_distance_amended "9" "ABC").2.2.2 (by decide) (by decide)
     (by decide) (Or.inl (by decide))⟩

/-! ### Claim C9 — determinism -/

/-- C9: two runs on identical employee and site input sequences produce
identical outputs (schedule, alerts in order, unassigned shifts and
opportunities), whatever week-start labels the runs are given: the
engine has no source of nondeterminism and the week-start label never
reaches assignment logic. -/
theorem claim_c9_determinism :
    ∀ (ws1 ws2 : String) (emps1 emps2 : List Employee) (sites1 sites2 : List Site),
      emps1 = emps2 → sites1 = sites2 →
      runSchedule ws1 emps1 sites1 = runSchedule ws2 emps2 sites2 := by
  intro ws1 ws2 emps1 emps2 sites1 sites2 he hs
  rw [he, hs]
  rfl

/-- Witness for C9 at concrete inputs and two different week labels. -/
theorem claim_c9_determinism_witness :
    runSchedule "2025-01-06" [] [] = runSchedule "2025-06-02" [] [] :=
  claim_c9_determinism "2025-01-06" "2025-06-02" [] [] [] [] rfl rfl

/-! ### Stability of the insertion sort -/

/-- Inserting an element whose key class `p` relates (under `r`) to every
member of the class places it before every `p`-element of the list. -/
theorem orderedInsert_filter_pos {α : Type} {r : α → α → Prop} [DecidableRel r]
    {p : α → Bool} {x : α} (hpx : p x = true) (hkey : ∀ y, p y = true → r x y) :
    ∀ l : List α, (l.orderedInsert r x).filter p = x :: l.filter p := by
  intro l
  induction l with
  | nil => simp [List.orderedInsert, hpx]
  | cons y ys ih =>
    rw [List.orderedInsert]
    by_cases hr : r x y
    · rw [if_pos hr, List.filter_cons_of_pos hpx]
    · rw [if_neg hr]
      have hpy : ¬ p y = true := fun hc => hr (hkey y hc)
      rw [List.filter_cons_of_neg (by simpa using hpy), ih,
        List.filter_cons_of_neg (by simpa using hpy)]

/-- Inserting an element outside the key class `p` leaves the class's
filtered subsequence unchanged. -/
theorem orderedInsert_filter_neg {α : Type} {r : α → α → Prop} [DecidableRel r]
    {p : α → Bool} {x : α} (hpx : ¬ p x = true) :
    ∀ l : List α, (l.orderedInsert r x).filter p = l.filter p := by
  intro l
  induction l with
  | nil => simp [List.orderedInsert, List.filter, hpx]
  | cons y ys ih =>
    rw [List.orderedInsert]
    by_cases hr : r x y
    · rw [if_pos hr, List.filter_cons_of_neg (by simpa using hpx)]
    · rw [if_neg hr]
      by_cases hpy : p y = true
      · rw [List.filter_cons_of_pos hpy, List.filter_cons_of_pos hpy, ih]
      · rw [List.filter_cons_of_neg (by simpa using hpy),
          List.filter_cons_of_neg (by simpa using hpy), ih]

/-- Stability of `insertionSort` on key classes: if all members of the
class `p` are mutually `r`-related, the sorted list restricted to the
class equals the input restricted to the class — the sort preserves the
input order inside each tie class. -/
theorem insertionSort_filter_key {α : Type} {r : α → α → Prop} [DecidableRel r]
    {p : α → Bool} (hclass : ∀ a b, p a = true → p b = true → r a b) :
    ∀ l : List α, (List.insertionSort r l).filter p = l.filter p := by
  intro l
  induction l with
  | nil => rfl
  | cons x xs ih =>
    rw [List.insertionSort]
    by_cases hpx : p x = true
    · rw [orderedInsert_filter_pos hpx (fun y hy => hclass x y hpx hy), ih,
        List.filter_cons_of_pos hpx]
    · rw [orderedInsert_filter_neg hpx, ih, List.filter_cons_of_neg (by simpa using hpx)]

/-! ### Claim C7 — site processing order -/

/-- C7: the sites processed on a day are exactly those operating that
day; they are arranged in descending order of required guard count; and
for every tied guard count the input order is preserved (the sort is
stable). -/
theorem claim_c7_site_order :
    ∀ (sites : List Site) (day : String),
      (∀ s, s ∈ daySites sites day ↔ s ∈ sites ∧ day ∈ s.days_operation) ∧
      List.Sorted siteGE (daySites sites day) ∧
      ∀ k, (daySites sites day).filter (fun s => s.guards_required == k) =
        (sites.filter (fun s => decide (day ∈ s.days_operation))).filter
          (fun s => s.guards_required == k) := by
  intro sites day
  refine ⟨?_, List.sorted_insertionSort _ _, ?_⟩
  · intro s
    unfold daySites
    rw [List.mem_insertionSort, List.mem_filter, decide_eq_true_eq]
  · intro k
    exact insertionSort_filter_key
      (fun a b ha hb => by
        simp only [beq_iff_eq] at ha hb
        unfold siteGE
        rw [ha, hb]) _

/-- Witness for C7: a Monday with three sites, two of them tied on guard
count; the processed list keeps the high-demand site first and the tied
sites in input order. -/
theorem claim_c7_site_order_witness :
    (wSite2 ∈ daySites [wSite1, wSite2, wSite3] "Monday" ↔
      wSite2 ∈ [wSite1, wSite2, wSite3] ∧ "Monday" ∈ wSite2.days_operation) ∧
    List.Sorted siteGE (daySites [wSite1, wSite2, wSite3] "Monday") ∧
    (daySites [wSite1, wSite2, wSite3] "Monday").filter
        (fun s => s.guards_required == 1) =
      ([wSite1, wSite2, wSite3].filter
        (fun s => decide ("Monday" ∈ s.days_operation))).filter
        (fun s => s.guards_required == 1) :=
  ⟨(claim_c7_site_order [wSite1, wSite2, wSite3] "Monday").1 wSite2,
    (claim_c7_site_order [wSite1, wSite2, wSite3] "Monday").2.1,
    (claim_c7_site_order [wSite1, wSite2, wSite3] "Monday").2.2 1⟩

/-! ### Claim C6 — candidate ranking and tie-break -/

/-- C6: for each site the candidate pool is ranked ascending by the
lexicographic key (ledger hours, distance); the engine assigns the first
`guards_required` entries of that ranking (`chooseCandidates`); and of
two candidates with equal ledger hours, if the farther one is among
those assigned then so is the closer one — the closer candidate wins a
contested slot. -/
theorem claim_c6_candidate_ranking :
    ∀ (cands : List Candidate) (k : Nat),
      (rankCandidates cands).Perm cands ∧
      List.Sorted candLE (rankCandidates cands) ∧
      chooseCandidates k cands = (rankCandidates cands).take k ∧
      ∀ a b, a ∈ cands → b ∈ cands → a.workload = b.workload →
        a.distance < b.distance → b ∈ chooseCandidates k cands →
        a ∈ chooseCandidates k cands := by
  intro cands k
  refine ⟨List.perm_insertionSort _ _, List.sorted_insertionSort _ _, rfl, ?_⟩
  intro a b ha hb hw hd hbk
  by_contra hak
  have haR : a ∈ rankCandidates cands := by
    unfold rankCandidates
    exact (List.mem_insertionSort candLE).mpr ha
  have hsplit : (rankCandidates cands).take k ++ (rankCandidates cands).drop k =
      rankCandidates cands := List.take_append_drop _ _
  have haD : a ∈ (rankCandidates cands).drop k := by
    rcases List.mem_append.mp (by rw [hsplit]; exact haR) with h | h
    · exact absurd h (by simpa [chooseCandidates] using hak)
    · exact h
  have hsorted : List.Pairwise candLE
      ((rankCandidates cands).take k ++ (rankCandidates cands).drop k) := by
    rw [hsplit]
    exact List.sorted_insertionSort _ _
  have hrel : candLE b a :=
    (List.pairwise_append.mp hsorted).2.2 b (by simpa [chooseCandidates] using hbk) a haD
  rcases hrel with hlt | ⟨_, hle⟩
  · rw [hw] at hlt
    exact lt_irrefl _ hlt
  · exact absurd hd (not_lt.mpr hle)

/-- Witness for C6: three equally-loaded candidates at distances 5, 10
and 50 competing for two slots; the farther assigned one (distance 10)
forces the closer one (distance 5) to be assigned too. -/
theorem claim_c6_candidate_ranking_witness :
    (⟨⟨1, "a", "", "LE1", "", 48, ["Monday"], false⟩, 5, 0⟩ : Candidate) ∈
      chooseCandidates 2
        [⟨⟨3, "c", "", "NN1", "", 48, ["Monday"], false⟩, 50, 0⟩,
         ⟨⟨1, "a", "", "LE1", "", 48, ["Monday"], false⟩, 5, 0⟩,
         ⟨⟨2, "b", "", "NN2", "", 48, ["Monday"], false⟩, 10, 0⟩] :=
  (claim_c6_candidate_ranking
      [⟨⟨3, "c", "", "NN1", "", 48, ["Monday"], false⟩, 50, 0⟩,
       ⟨⟨1, "a", "", "LE1", "", 48, ["Monday"], false⟩, 5, 0⟩,
       ⟨⟨2, "b", "", "NN2", "", 48, ["Monday"], false⟩, 10, 0⟩] 2).2.2.2
    ⟨⟨1, "a", "", "LE1", "", 48, ["Monday"], false⟩, 5, 0⟩
    ⟨⟨2, "b", "", "NN2", "", 48, ["Monday"], false⟩, 10, 0⟩
    (by decide) (by decide) rfl (by decide) (by with_unfolding_all decide)

/-! ### Basic facts about the engine's data handling -/

/-- When employee ids are unique (the spec guarantees stable unique
identifiers), two employees of the list with the same id are the same
record. -/
theorem employee_eq_of_id_eq {employees : List Employee}
    (h : (employees.map Employee.id).Nodup) {e1 e2 : Employee}
    (h1 : e1 ∈ employees) (h2 : e2 ∈ employees) (heq : e1.id = e2.id) : e1 = e2 :=
  List.inj_on_of_nodup_map h h1 h2 heq

/-- Membership in the candidate pool, spelled out: available that day,
ledger plus shift hours at most the cap (equality allowed — the source
excludes only on strict excess), and no assignment yet that day. -/
theorem mem_candFilter {employees : List Employee} {day : String} {sh : ℚ}
    {st : GenState} {emp : Employee} :
    emp ∈ candFilter employees day sh st ↔
      emp ∈ employees ∧ day ∈ emp.availability ∧
      st.employee_hours emp.id + sh ≤ emp.max_hours ∧
      st.schedule emp.id day = [] := by
  unfold candFilter
  rw [List.mem_filter]
  simp only [Bool.and_eq_true, decide_eq_true_eq, Bool.not_eq_true',
    decide_eq_false_iff_not, not_lt]
  tauto

/-- What `buildCandidates` produces on success: one record per pool
member in order, carrying the ledger hours at build time and the
computed distance. -/
theorem buildCandidates_spec {site : Site} {st : GenState} :
    ∀ {l : List Employee} {cs : List Candidate},
      buildCandidates site st l = some cs →
      cs.map Candidate.emp = l ∧
      ∀ c ∈ cs, c.workload = st.employee_hours c.emp.id ∧
        estimate_distance c.emp.postcode site.postcode = some c.distance := by
  intro l
  induction l with
  | nil =>
    intro cs h
    rw [buildCandidates] at h
    cases h
    exact ⟨rfl, fun c hc => absurd hc (List.not_mem_nil c)⟩
  | cons emp rest ih =>
    intro cs h
    rw [buildCandidates] at h
    cases hd : estimate_distance emp.postcode site.postcode with
    | none => rw [hd] at h; cases h
    | some dist =>
      rw [hd] at h
      cases hr : buildCandidates site st rest with
      | none => rw [hr] at h; cases h
      | some cs' =>
        rw [hr] at h
        cases h
        obtain ⟨h1, h2⟩ := ih hr
        refine ⟨by simp [h1], ?_⟩
        intro c hc
        rcases List.mem_cons.mp hc with rfl | hc'
        · exact ⟨rfl, hd⟩
        · exact h2 c hc'

/-- The alert list is untouched by a single assignment. -/
theorem assignOne_alerts (site : Site) (day : String) (sh : ℚ)
    (st : GenState) (c : Candidate) :
    (assignOne site day sh st c).alerts = st.alerts := rfl

/-- The unassigned list is untouched by a single assignment. -/
theorem assignOne_unassigned (site : Site) (day : String) (sh : ℚ)
    (st : GenState) (c : Candidate) :
    (assignOne site day sh st c).unassigned_shifts = st.unassigned_shifts := rfl

/-- The opportunity list is untouched by a single assignment. -/
theorem assignOne_opps (site : Site) (day : String) (sh : ℚ)
    (st : GenState) (c : Candidate) :
    (assignOne site day sh st c).opportunities_24hr = st.opportunities_24hr := rfl

/-- Ledger effect of a single assignment. -/
theorem assignOne_hours (site : Site) (day : String) (sh : ℚ)
    (st : GenState) (c : Candidate) (i : Nat) :
    (assignOne site day sh st c).employee_hours i =
      if i = c.emp.id then st.employee_hours i + sh else st.employee_hours i := rfl

/-- Schedule effect of a single assignment. -/
theorem assignOne_schedule (site : Site) (day : String) (sh : ℚ)
    (st : GenState) (c : Candidate) (i : Nat) (d : String) :
    (assignOne site day sh st c).schedule i d =
      if i = c.emp.id then
        (if d = day then st.schedule i d ++ [mkShift site sh] else st.schedule i d)
      else st.schedule i d := by
  by_cases h : i = c.emp.id <;> simp [assignOne, h]

/-! ### The assignment fold -/

/-- Effect of assigning a block of candidates with pairwise-distinct
employee ids: output lists unchanged; ledgers and schedules of
uninvolved ids unchanged; each assigned employee's ledger grows by the
shift hours and their slot for the day gains exactly this shift. -/
theorem foldAssign_spec (site : Site) (day : String) (sh : ℚ) :
    ∀ (cs : List Candidate) (st : GenState),
      (cs.map (fun c => c.emp.id)).Nodup →
      ((cs.foldl (assignOne site day sh) st).alerts = st.alerts ∧
        (cs.foldl (assignOne site day sh) st).unassigned_shifts = st.unassigned_shifts ∧
        (cs.foldl (assignOne site day sh) st).opportunities_24hr = st.opportunities_24hr) ∧
      (∀ i, i ∉ cs.map (fun c => c.emp.id) →
        (cs.foldl (assignOne site day sh) st).employee_hours i = st.employee_hours i ∧
        ∀ d, (cs.foldl (assignOne site day sh) st).schedule i d = st.schedule i d) ∧
      (∀ c ∈ cs,
        (cs.foldl (assignOne site day sh) st).employee_hours c.emp.id =
          st.employee_hours c.emp.id + sh ∧
        (cs.foldl (assignOne site day sh) st).schedule c.emp.id day =
          st.schedule c.emp.id day ++ [mkShift site sh] ∧
        ∀ d, d ≠ day →
          (cs.foldl (assignOne site day sh) st).schedule c.emp.id d =
            st.schedule c.emp.id d) := by
  intro cs
  induction cs with
  | nil =>
    intro st _
    exact ⟨⟨rfl, rfl, rfl⟩, fun i _ => ⟨rfl, fun d => rfl⟩,
      fun c hc => absurd hc (List.not_mem_nil c)⟩
  | cons c0 cs ih =>
    intro st hnd
    rw [List.map_cons, List.nodup_cons] at hnd
    obtain ⟨hc0, hnd'⟩ := hnd
    have IH := ih (assignOne site day sh st c0) hnd'
    rw [List.foldl_cons]
    refine ⟨?_, ?_, ?_⟩
    · exact ⟨IH.1.1.trans (assignOne_alerts ..),
        IH.1.2.1.trans (assignOne_unassigned ..),
        IH.1.2.2.trans (assignOne_opps ..)⟩
    · intro i hi
      rw [List.map_cons, List.mem_cons] at hi
      push_neg at hi
      obtain ⟨hi0, hirest⟩ := hi
      obtain ⟨hh, hs⟩ := IH.2.1 i hirest
      refine ⟨?_, ?_⟩
      · rw [hh, assignOne_hours, if_neg hi0]
      · intro d
        rw [hs d, assignOne_schedule, if_neg hi0]
    · intro c hc
      rcases List.mem_cons.mp hc with rfl | hc'
      · obtain ⟨hh, hs⟩ := IH.2.1 c.emp.id hc0
        refine ⟨?_, ?_, ?_⟩
        · rw [hh, assignOne_hours, if_pos rfl]
        · rw [hs day, assignOne_schedule, if_pos rfl, if_pos rfl]
        · intro d hd
          rw [hs d, assignOne_schedule, if_pos rfl, if_neg hd]
      · have hne : c.emp.id ≠ c0.emp.id := by
          intro h
          exact hc0 (h ▸ List.mem_map_of_mem (fun x => x.emp.id) hc')
        obtain ⟨hh, hs, hsd⟩ := IH.2.2 c hc'
        refine ⟨?_, ?_, ?_⟩
        · rw [hh, assignOne_hours, if_neg hne]
        · rw [hs, assignOne_schedule, if_neg hne]
        · intro d hd
          rw [hsd d hd, assignOne_schedule, if_neg hne]

/-! ### Decomposing one site's processing -/

/-- Successful processing of one site decomposes into: the shift hours
computed, the candidate records built, the chosen prefix assigned, and
the understaffing branch taken exactly when fewer than the required
number were chosen. -/
theorem processSite_decomp {employees : List Employee} {day : String}
    {st st' : GenState} {site : Site}
    (h : processSite employees day st site = some st') :
    ∃ (sh : ℚ) (cands : List Candidate),
      calculate_shift_hours site.shift_start site.shift_end = some sh ∧
      buildCandidates site st (candFilter employees day sh st) = some cands ∧
      st' =
        (if (chooseCandidates site.guards_required cands).length < site.guards_required then
          { (chooseCandidates site.guards_required cands).foldl (assignOne site day sh) st with
            unassigned_shifts :=
              ((chooseCandidates site.guards_required cands).foldl (assignOne site day sh) st).unassigned_shifts ++
                [⟨day, site.name, site.guards_required,
                  (chooseCandidates site.guards_required cands).length⟩],
            alerts :=
              ((chooseCandidates site.guards_required cands).foldl (assignOne site day sh) st).alerts ++
                [errAlertOf ⟨day, site.name, site.guards_required,
                  (chooseCandidates site.guards_required cands).length⟩] }
        else (chooseCandidates site.guards_required cands).foldl (assignOne site day sh) st) := by
  unfold processSite at h
  split at h
  · cases h
  · rename_i sh hsh
    split at h
    · cases h
    · rename_i cands hb
      cases h
      exact ⟨sh, cands, hsh, hb, rfl⟩

/-- Properties of the chosen candidate block: it is no longer than the
required count, its employee ids are pairwise distinct (given unique
input ids), and every chosen candidate passed the pool filter with the
ledger value recorded as its workload. -/
theorem chosen_spec {employees : List Employee} {day : String} {sh : ℚ}
    {st : GenState} {site : Site} {cands : List Candidate}
    (hids : (employees.map Employee.id).Nodup)
    (hb : buildCandidates site st (candFilter employees day sh st) = some cands) :
    (chooseCandidates site.guards_required cands).length ≤ site.guards_required ∧
    ((chooseCandidates site.guards_required cands).map (fun c => c.emp.id)).Nodup ∧
    ∀ c ∈ chooseCandidates site.guards_required cands,
      c.emp ∈ employees ∧ day ∈ c.emp.availability ∧
      st.employee_hours c.emp.id + sh ≤ c.emp.max_hours ∧
      st.schedule c.emp.id day = [] ∧
      c.workload = st.employee_hours c.emp.id := by
  obtain ⟨hmap, hprops⟩ := buildCandidates_spec hb
  have hcandsNodup : (cands.map (fun c => c.emp.id)).Nodup := by
    have : cands.map (fun c => c.emp.id) =
        (cands.map Candidate.emp).map Employee.id := by
      rw [List.map_map]
      rfl
    rw [this, hmap]
    exact ((List.filter_sublist employees).map Employee.id).nodup hids
  have hperm : List.Perm ((rankCandidates cands).map (fun c => c.emp.id))
      (cands.map (fun c => c.emp.id)) :=
    (List.perm_insertionSort candLE cands).map _
  have hrankedNodup : ((rankCandidates cands).map (fun c => c.emp.id)).Nodup :=
    (hperm.nodup_iff).mpr hcandsNodup
  refine ⟨?_, ?_, ?_⟩
  · unfold chooseCandidates
    rw [List.length_take]
    exact min_le_left _ _
  · exact ((List.take_sublist _ _).map (fun c : Candidate => c.emp.id)).nodup hrankedNodup
  · intro c hc
    have hcC : c ∈ cands :=
      (List.mem_insertionSort candLE).mp (List.mem_of_mem_take hc)
    have hcF : c.emp ∈ candFilter employees day sh st := by
      rw [← hmap]
      exact List.mem_map_of_mem Candidate.emp hcC
    obtain ⟨hmem, hav, hcap, hempty⟩ := mem_candFilter.mp hcF
    exact ⟨hmem, hav, hcap, hempty, (hprops c hcC).1⟩

/-! ### Summation helpers and week facts -/

/-- Summing a function over a duplicate-free list after bumping its
value at a single member by `q` raises the sum by `q`. -/
theorem sum_map_update {α M : Type} [AddCommMonoid M]
    {l : List α} (hnd : l.Nodup) {a : α} (ha : a ∈ l) {f g : α → M} {q : M}
    (hfa : f a = g a + q) (hrest : ∀ b ∈ l, b ≠ a → f b = g b) :
    (l.map f).sum = (l.map g).sum + q := by
  induction l with
  | nil => cases ha
  | cons x xs ih =>
    obtain ⟨hx, hxs⟩ := List.nodup_cons.mp hnd
    rcases List.mem_cons.mp ha with rfl | ha'
    · have hcongr : ∀ b ∈ xs, f b = g b := fun b hb =>
        hrest b (List.mem_cons_of_mem _ hb) (fun hba => hx (hba ▸ hb))
      rw [List.map_cons, List.map_cons, List.sum_cons, List.sum_cons, hfa,
        List.map_congr_left hcongr, add_right_comm]
    · have hxa : x ≠ a := fun h => hx (h ▸ ha')
      rw [List.map_cons, List.map_cons, List.sum_cons, List.sum_cons,
        hrest x (List.mem_cons_self x xs) hxa,
        ih hxs ha' (fun b hb hba => hrest b (List.mem_cons_of_mem _ hb) hba),
        ← add_assoc]

/-- Summing a function over a duplicate-free list where no member's
value changed leaves the sum unchanged. -/
theorem sum_map_congr {α M : Type} [AddCommMonoid M]
    {l : List α} {f g : α → M} (h : ∀ b ∈ l, f b = g b) :
    (l.map f).sum = (l.map g).sum := by
  rw [List.map_congr_left h]

/-- The canonical week has no repeated day. -/
theorem weekDays_nodup : weekDays.Nodup := by decide

/-- Adding one shift to an employee's slot for a day of the week adds
that shift's hours to the employee's weekly total. -/
theorem weekHours_append {sched sched' : Nat → String → List Shift} {i : Nat}
    {day : String} {x : Shift}
    (hday : day ∈ weekDays)
    (h1 : sched' i day = sched i day ++ [x])
    (h2 : ∀ d, d ≠ day → sched' i d = sched i d) :
    weekHours sched' i = weekHours sched i + x.hours := by
  unfold weekHours
  refine sum_map_update weekDays_nodup hday ?_ ?_
  · rw [h1, List.map_append, List.sum_append]
    simp
  · intro d _ hd
    rw [h2 d hd]

/-- An employee's weekly total only depends on that employee's row of
the schedule. -/
theorem weekHours_congr {sched sched' : Nat → String → List Shift} {i : Nat}
    (h : ∀ d, sched' i d = sched i d) :
    weekHours sched' i = weekHours sched i := by
  unfold weekHours
  exact sum_map_congr (fun d _ => by rw [h d])

/-! ### Invariant preservation through one site -/

/-- The opportunity list is untouched by any assignment fold. -/
theorem foldAssign_opps (site : Site) (day : String) (sh : ℚ) :
    ∀ (cs : List Candidate) (st : GenState),
      (cs.foldl (assignOne site day sh) st).opportunities_24hr =
        st.opportunities_24hr := by
  intro cs
  induction cs with
  | nil => intro st; rfl
  | cons c cs ih => intro st; rw [List.foldl_cons, ih, assignOne_opps]

/-- The schedule and ledger of the state after `processSite` are those
of the assignment fold (the understaffing branch only appends to the
output lists). -/
theorem processSite_state_eq {employees : List Employee} {day : String}
    {st st' : GenState} {site : Site}
    (h : processSite employees day st site = some st') :
    ∃ (sh : ℚ) (cands : List Candidate),
      calculate_shift_hours site.shift_start site.shift_end = some sh ∧
      buildCandidates site st (candFilter employees day sh st) = some cands ∧
      st'.schedule =
        ((chooseCandidates site.guards_required cands).foldl (assignOne site day sh) st).schedule ∧
      st'.employee_hours =
        ((chooseCandidates site.guards_required cands).foldl (assignOne site day sh) st).employee_hours ∧
      st'.opportunities_24hr = st.opportunities_24hr := by
  obtain ⟨sh, cands, hsh, hb, hst'⟩ := processSite_decomp h
  refine ⟨sh, cands, hsh, hb, ?_, ?_, ?_⟩ <;> rw [hst']
  · split <;> rfl
  · split <;> rfl
  · split
    · exact foldAssign_opps ..
    · exact foldAssign_opps ..

/-- One site's processing preserves the cap invariant, the
ledger-equals-schedule invariant and the one-shift-per-day invariant. -/
theorem processSite_invs {employees : List Employee} {day : String}
    {st st' : GenState} {site : Site}
    (hids : (employees.map Employee.id).Nodup)
    (hday : day ∈ weekDays)
    (h : processSite employees day st site = some st') :
    (HoursInv employees st → HoursInv employees st') ∧
    (SumInv employees st → SumInv employees st') ∧
    (LenInv employees st → LenInv employees st') := by
  obtain ⟨sh, cands, hsh, hb, hsched, hhours, _⟩ := processSite_state_eq h
  obtain ⟨hlen, hnodup, hprops⟩ := chosen_spec hids hb
  have F := foldAssign_spec site day sh (chooseCandidates site.guards_required cands) st hnodup
  refine ⟨?_, ?_, ?_⟩
  · intro hinv e he
    rw [hhours]
    by_cases hmem : e.id ∈ (chooseCandidates site.guards_required cands).map (fun c => c.emp.id)
    · obtain ⟨c, hc, hcid⟩ := List.mem_map.mp hmem
      obtain ⟨hcmem, _, hcap, _, _⟩ := hprops c hc
      have hce : c.emp = e := employee_eq_of_id_eq hids hcmem he hcid
      rw [← hcid, (F.2.2 c hc).1, hcid]
      rw [hce] at hcap
      exact hcap
    · rw [(F.2.1 e.id hmem).1]
      exact hinv e he
  · intro hinv e he
    rw [hhours]
    by_cases hmem : e.id ∈ (chooseCandidates site.guards_required cands).map (fun c => c.emp.id)
    · obtain ⟨c, hc, hcid⟩ := List.mem_map.mp hmem
      obtain ⟨hfh, hfs, hfsd⟩ := F.2.2 c hc
      have hweek : weekHours st'.schedule e.id = weekHours st.schedule e.id + sh := by
        rw [hsched, ← hcid]
        exact weekHours_append hday hfs (fun d hd => hfsd d hd)
      rw [← hcid, hfh, hcid, hweek, hinv e he]
    · rw [(F.2.1 e.id hmem).1]
      have hweek : weekHours st'.schedule e.id = weekHours st.schedule e.id := by
        rw [hsched]
        exact weekHours_congr (F.2.1 e.id hmem).2
      rw [hweek]
      exact hinv e he
  · intro hinv e he d
    rw [hsched]
    by_cases hmem : e.id ∈ (chooseCandidates site.guards_required cands).map (fun c => c.emp.id)
    · obtain ⟨c, hc, hcid⟩ := List.mem_map.mp hmem
      obtain ⟨_, _, _, hempty, _⟩ := hprops c hc
      obtain ⟨_, hfs, hfsd⟩ := F.2.2 c hc
      by_cases hd : d = day
      · rw [hd, ← hcid, hfs, hempty]
        simp
      · rw [← hcid, hfsd d hd, hcid]
        exact hinv e he d
    · rw [(F.2.1 e.id hmem).2 d]
      exact hinv e he d

/-- One site's processing (for a site drawn from the input list) only
adds shifts whose postcode is an input site's postcode. -/
theorem processSite_schedsrc {sites : List Site} {employees : List Employee}
    {day : String} {st st' : GenState} {site : Site}
    (hids : (employees.map Employee.id).Nodup)
    (hsite : site ∈ sites)
    (h : processSite employees day st site = some st') :
    SchedSrc sites st → SchedSrc sites st' := by
  obtain ⟨sh, cands, hsh, hb, hsched, hhours, _⟩ := processSite_state_eq h
  obtain ⟨_, hnodup, _⟩ := chosen_spec hids hb
  have F := foldAssign_spec site day sh (chooseCandidates site.guards_required cands) st hnodup
  intro hinv i d x hx
  rw [hsched] at hx
  by_cases hmem : i ∈ (chooseCandidates site.guards_required cands).map (fun c => c.emp.id)
  · obtain ⟨c, hc, hcid⟩ := List.mem_map.mp hmem
    obtain ⟨_, hfs, hfsd⟩ := F.2.2 c hc
    by_cases hd : d = day
    · rw [hd, ← hcid, hfs] at hx
      rcases List.mem_append.mp hx with hx' | hx'
      · exact hinv i day x (hcid ▸ hx')
      · rcases List.mem_singleton.mp hx' with rfl
        exact ⟨site, hsite, rfl⟩
    · rw [← hcid, hfsd d hd] at hx
      exact hinv i d x (hcid ▸ hx)
  · rw [(F.2.1 i hmem).2 d] at hx
    exact hinv i d x hx

/-! ### Composition over the site loop -/

/-- The whole day's site loop preserves the three ledger/schedule
invariants. -/
theorem processSites_invs {employees : List Employee} {day : String}
    (hids : (employees.map Employee.id).Nodup) (hday : day ∈ weekDays) :
    ∀ (ds : List Site) (st st' : GenState),
      processSites employees day ds st = some st' →
      (HoursInv employees st → HoursInv employees st') ∧
      (SumInv employees st → SumInv employees st') ∧
      (LenInv employees st → LenInv employees st') := by
  intro ds
  induction ds with
  | nil =>
    intro st st' h
    cases h
    exact ⟨id, id, id⟩
  | cons s ds ih =>
    intro st st' h
    rw [processSites] at h
    split at h
    · cases h
    · rename_i st1 hp
      have h1 := processSite_invs hids hday hp
      have h2 := ih st1 st' h
      exact ⟨fun a => h2.1 (h1.1 a), fun a => h2.2.1 (h1.2.1 a),
        fun a => h2.2.2 (h1.2.2 a)⟩

/-- The whole day's site loop only schedules shifts drawn from the given
site list. -/
theorem processSites_schedsrc {sites : List Site} {employees : List Employee}
    {day : String} (hids : (employees.map Employee.id).Nodup) :
    ∀ (ds : List Site), (∀ s ∈ ds, s ∈ sites) →
    ∀ (st st' : GenState),
      processSites employees day ds st = some st' →
      SchedSrc sites st → SchedSrc sites st' := by
  intro ds
  induction ds with
  | nil =>
    intro _ st st' h
    cases h
    exact id
  | cons s ds ih =>
    intro hsub st st' h
    rw [processSites] at h
    split at h
    · cases h
    · rename_i st1 hp
      intro hinv
      exact ih (fun x hx => hsub x (List.mem_cons_of_mem s hx)) st1 st' h
        (processSite_schedsrc hids (hsub s (List.mem_cons_self s ds)) hp hinv)

/-! ### The warning pass -/

/-- One warning step never touches anything but the alert list, and any
alert it appends is a warning. -/
theorem warnStep_state (employees : List Employee) (st : GenState) (i : Nat) :
    (warnStep employees st i).schedule = st.schedule ∧
    (warnStep employees st i).employee_hours = st.employee_hours ∧
    (warnStep employees st i).unassigned_shifts = st.unassigned_shifts ∧
    (warnStep employees st i).opportunities_24hr = st.opportunities_24hr ∧
    ∃ ws : List Alert, (warnStep employees st i).alerts = st.alerts ++ ws ∧
      ∀ a ∈ ws, a.type = "warning" := by
  unfold warnStep
  split
  · exact ⟨rfl, rfl, rfl, rfl, [], by simp, fun a ha => absurd ha (List.not_mem_nil a)⟩
  · rename_i emp hemp
    split
    · refine ⟨rfl, rfl, rfl, rfl, [warnAlertOf emp (st.employee_hours i)], rfl, ?_⟩
      intro a ha
      rcases List.mem_singleton.mp ha with rfl
      rfl
    · exact ⟨rfl, rfl, rfl, rfl, [], by simp, fun a ha => absurd ha (List.not_mem_nil a)⟩

/-- The full warning pass never touches anything but the alert list, and
appends only warnings. -/
theorem warnFold_state (employees : List Employee) :
    ∀ (keys : List Nat) (st : GenState),
      (keys.foldl (warnStep employees) st).schedule = st.schedule ∧
      (keys.foldl (warnStep employees) st).employee_hours = st.employee_hours ∧
      (keys.foldl (warnStep employees) st).unassigned_shifts = st.unassigned_shifts ∧
      (keys.foldl (warnStep employees) st).opportunities_24hr = st.opportunities_24hr ∧
      ∃ ws : List Alert, (keys.foldl (warnStep employees) st).alerts = st.alerts ++ ws ∧
        ∀ a ∈ ws, a.type = "warning" := by
  intro keys
  induction keys with
  | nil =>
    intro st
    exact ⟨rfl, rfl, rfl, rfl, [], by simp, fun a ha => absurd ha (List.not_mem_nil a)⟩
  | cons i keys ih =>
    intro st
    rw [List.foldl_cons]
    obtain ⟨hs1, hh1, hu1, ho1, ws1, ha1, hw1⟩ := warnStep_state employees st i
    obtain ⟨hs2, hh2, hu2, ho2, ws2, ha2, hw2⟩ := ih (warnStep employees st i)
    refine ⟨hs2.trans hs1, hh2.trans hh1, hu2.trans hu1, ho2.trans ho1,
      ws1 ++ ws2, ?_, ?_⟩
    · rw [ha2, ha1, List.append_assoc]
    · intro a ha
      rcases List.mem_append.mp ha with h | h
      · exact hw1 a h
      · exact hw2 a h

/-- `warningPass` in terms of the fold lemma. -/
theorem warningPass_state (employees : List Employee) (st : GenState) :
    (warningPass employees st).schedule = st.schedule ∧
    (warningPass employees st).employee_hours = st.employee_hours ∧
    (warningPass employees st).unassigned_shifts = st.unassigned_shifts ∧
    (warningPass employees st).opportunities_24hr = st.opportunities_24hr ∧
    ∃ ws : List Alert, (warningPass employees st).alerts = st.alerts ++ ws ∧
      ∀ a ∈ ws, a.type = "warning" :=
  warnFold_state employees (empKeys employees) st

/-! ### Composition over the week -/

/-- Decomposition of one `_assign_day` call. -/
theorem assign_day_decomp {employees : List Employee} {sites : List Site}
    {day : String} {st st' : GenState}
    (h : assign_day employees sites day st = some st') :
    ∃ st1, processSites employees day (daySites sites day) st = some st1 ∧
      st' = warningPass employees st1 := by
  unfold assign_day at h
  split at h
  · cases h
  · rename_i st1 hp
    cases h
    exact ⟨st1, hp, rfl⟩

/-- A full day preserves the three ledger/schedule invariants. -/
theorem assign_day_invs {employees : List Employee} {sites : List Site}
    {day : String} {st st' : GenState}
    (hids : (employees.map Employee.id).Nodup) (hday : day ∈ weekDays)
    (h : assign_day employees sites day st = some st') :
    (HoursInv employees st → HoursInv employees st') ∧
    (SumInv employees st → SumInv employees st') ∧
    (LenInv employees st → LenInv employees st') := by
  obtain ⟨st1, hp, rfl⟩ := assign_day_decomp h
  obtain ⟨hs, hh, _, _, _⟩ := warningPass_state employees st1
  have h1 := processSites_invs hids hday (daySites sites day) st st1 hp
  refine ⟨?_, ?_, ?_⟩
  · intro a e he
    rw [hh]
    exact h1.1 a e he
  · intro a e he
    rw [hh, hs]
    exact h1.2.1 a e he
  · intro a e he d
    rw [hs]
    exact h1.2.2 a e he d

/-- Membership in the day's site list. -/
theorem mem_daySites {sites : List Site} {day : String} {s : Site} :
    s ∈ daySites sites day ↔ s ∈ sites ∧ day ∈ s.days_operation := by
  unfold daySites
  rw [List.mem_insertionSort, List.mem_filter, decide_eq_true_eq]

/-- A full day only schedules shifts drawn from the input site list. -/
theorem assign_day_schedsrc {employees : List Employee} {sites : List Site}
    {day : String} {st st' : GenState}
    (hids : (employees.map Employee.id).Nodup)
    (h : assign_day employees sites day st = some st') :
    SchedSrc sites st → SchedSrc sites st' := by
  obtain ⟨st1, hp, rfl⟩ := assign_day_decomp h
  obtain ⟨hs, _, _, _, _⟩ := warningPass_state employees st1
  intro hinv i d x hx
  rw [hs] at hx
  exact processSites_schedsrc hids (daySites sites day)
    (fun s hsmem => (mem_daySites.mp hsmem).1)
    st st1 hp hinv i d x hx

/-- The seven-day loop preserves the three ledger/schedule invariants. -/
theorem processDays_invs {employees : List Employee} {sites : List Site}
    (hids : (employees.map Employee.id).Nodup) :
    ∀ (ds : List String), (∀ d ∈ ds, d ∈ weekDays) →
    ∀ (st st' : GenState),
      processDays employees sites ds st = some st' →
      (HoursInv employees st → HoursInv employees st') ∧
      (SumInv employees st → SumInv employees st') ∧
      (LenInv employees st → LenInv employees st') := by
  intro ds
  induction ds with
  | nil =>
    intro _ st st' h
    cases h
    exact ⟨id, id, id⟩
  | cons d ds ih =>
    intro hsub st st' h
    rw [processDays] at h
    split at h
    · cases h
    · rename_i st1 hp
      have h1 := assign_day_invs hids (hsub d (List.mem_cons_self d ds)) hp
      have h2 := ih (fun x hx => hsub x (List.mem_cons_of_mem d hx)) st1 st' h
      exact ⟨fun a => h2.1 (h1.1 a), fun a => h2.2.1 (h1.2.1 a),
        fun a => h2.2.2 (h1.2.2 a)⟩

/-- The seven-day loop only schedules shifts drawn from the input site
list. -/
theorem processDays_schedsrc {employees : List Employee} {sites : List Site}
    (hids : (employees.map Employee.id).Nodup) :
    ∀ (ds : List String) (st st' : GenState),
      processDays employees sites ds st = some st' →
      SchedSrc sites st → SchedSrc sites st' := by
  intro ds
  induction ds with
  | nil =>
    intro st st' h
    cases h
    exact id
  | cons d ds ih =>
    intro st st' h
    rw [processDays] at h
    split at h
    · cases h
    · rename_i st1 hp
      intro hinv
      exact ih st1 st' h (assign_day_schedsrc hids hp hinv)

/-! ### State shape of the opportunity pass -/

/-- One pair check leaves schedule, ledger and unassigned list
untouched, and appends matching opportunity/success-alert pairs. -/
theorem checkPair_state {emp : Employee} {d1 d2 : String} {st st' : GenState}
    (h : checkPair emp d1 d2 st = some st') :
    st'.schedule = st.schedule ∧ st'.employee_hours = st.employee_hours ∧
    st'.unassigned_shifts = st.unassigned_shifts ∧
    ∃ os : List Opportunity, st'.opportunities_24hr = st.opportunities_24hr ++ os ∧
      st'.alerts = st.alerts ++ os.map oppAlertOf := by
  unfold checkPair at h
  split at h
  · rename_i today tomorrow hm1 hm2
    split at h
    · split at h
      · cases h
      · rename_i dist hdist
        split at h
        · cases h
          exact ⟨rfl, rfl, rfl, [⟨emp.name, d1 ++ "-" ++ d2, today.site_name,
            tomorrow.site_name, dist⟩], rfl, rfl⟩
        · cases h
          exact ⟨rfl, rfl, rfl, [], by simp, by simp⟩
    · cases h
      exact ⟨rfl, rfl, rfl, [], by simp, by simp⟩
  · cases h
    exact ⟨rfl, rfl, rfl, [], by simp, by simp⟩

/-- A run of pair checks leaves schedule, ledger and unassigned list
untouched, and appends matching opportunity/success-alert pairs. -/
theorem checkPairs_state {emp : Employee} :
    ∀ (ps : List (String × String)) (st st' : GenState),
      checkPairs emp ps st = some st' →
      st'.schedule = st.schedule ∧ st'.employee_hours = st.employee_hours ∧
      st'.unassigned_shifts = st.unassigned_shifts ∧
      ∃ os : List Opportunity, st'.opportunities_24hr = st.opportunities_24hr ++ os ∧
        st'.alerts = st.alerts ++ os.map oppAlertOf := by
  intro ps
  induction ps with
  | nil =>
    intro st st' h
    cases h
    exact ⟨rfl, rfl, rfl, [], by simp, by simp⟩
  | cons p ps ih =>
    intro st st' h
    rw [checkPairs] at h
    split at h
    · cases h
    · rename_i st1 hp
      obtain ⟨hs1, hh1, hu1, os1, ho1, ha1⟩ := checkPair_state hp
      obtain ⟨hs2, hh2, hu2, os2, ho2, ha2⟩ := ih st1 st' h
      refine ⟨hs2.trans hs1, hh2.trans hh1, hu2.trans hu1, os1 ++ os2, ?_, ?_⟩
      · rw [ho2, ho1, List.append_assoc]
      · rw [ha2, ha1, List.map_append, List.append_assoc]

/-- The whole opportunity pass leaves schedule, ledger and unassigned
list untouched, and appends matching opportunity/success-alert pairs. -/
theorem identifyEmps_state {employees : List Employee} :
    ∀ (keys : List Nat) (st st' : GenState),
      identifyEmps employees keys st = some st' →
      st'.schedule = st.schedule ∧ st'.employee_hours = st.employee_hours ∧
      st'.unassigned_shifts = st.unassigned_shifts ∧
      ∃ os : List Opportunity, st'.opportunities_24hr = st.opportunities_24hr ++ os ∧
        st'.alerts = st.alerts ++ os.map oppAlertOf := by
  intro keys
  induction keys with
  | nil =>
    intro st st' h
    cases h
    exact ⟨rfl, rfl, rfl, [], by simp, by simp⟩
  | cons i keys ih =>
    intro st st' h
    rw [identifyEmps] at h
    split at h
    · exact ih st st' h
    · rename_i emp hemp
      split at h
      · rename_i hwill
        split at h
        · cases h
        · rename_i st1 hp
          obtain ⟨hs1, hh1, hu1, os1, ho1, ha1⟩ := checkPairs_state dayPairs st st1 hp
          obtain ⟨hs2, hh2, hu2, os2, ho2, ha2⟩ := ih st1 st' h
          refine ⟨hs2.trans hs1, hh2.trans hh1, hu2.trans hu1, os1 ++ os2, ?_, ?_⟩
          · rw [ho2, ho1, List.append_assoc]
          · rw [ha2, ha1, List.map_append, List.append_assoc]
      · exact ih st st' h

/-- Decomposition of a successful `generate` run. -/
theorem generate_decomp {employees : List Employee} {sites : List Site}
    {out : GenOutput} (h : generate employees sites = some out) :
    ∃ st st1, processDays employees sites weekDays initState = some st ∧
      identify_24hr_opportunities employees st = some st1 ∧
      out.schedule = st1.schedule ∧ out.alerts = st1.alerts ∧
      out.unassigned_shifts = st1.unassigned_shifts ∧
      out.opportunities_24hr = st1.opportunities_24hr := by
  unfold generate at h
  split at h
  · cases h
  · rename_i st hp
    split at h
    · cases h
    · rename_i st1 hi
      cases h
      exact ⟨st, st1, hp, hi, rfl, rfl, rfl, rfl⟩

/-! ### Claim C1 — weekly hour cap -/

/-- C1: in any produced schedule, every employee's total assigned shift
hours over the week stay within their cap (employee ids unique and caps
nonnegative, as the spec requires); moreover the candidate pool test is
the pre-assignment non-strict comparison — an employee for whom ledger
plus shift hours equals the cap exactly is still eligible, and one for
whom it strictly exceeds the cap is excluded. -/
theorem claim_c1_hour_cap :
    ∀ (employees : List Employee) (sites : List Site) (out : GenOutput),
      (employees.map Employee.id).Nodup →
      (∀ e ∈ employees, 0 ≤ e.max_hours) →
      generate employees sites = some out →
      (∀ e ∈ employees, weekHours out.schedule e.id ≤ e.max_hours) ∧
      (∀ (st : GenState) (day : String) (sh : ℚ) (e : Employee),
        e ∈ candFilter employees day sh st ↔
          e ∈ employees ∧ day ∈ e.availability ∧
          st.employee_hours e.id + sh ≤ e.max_hours ∧
          st.schedule e.id day = []) := by
  intro employees sites out hids hmax hgen
  obtain ⟨st, st1, hp, hi, hsch, _, _, _⟩ := generate_decomp hgen
  have hinit_h : HoursInv employees initState := fun e he => hmax e he
  have hinit_s : SumInv employees initState := by
    intro e he
    show (0 : ℚ) = weekHours (fun _ _ => []) e.id
    unfold weekHours
    simp
  have hD := processDays_invs hids weekDays (fun d hd => hd) initState st hp
  have hH : HoursInv employees st := hD.1 hinit_h
  have hS : SumInv employees st := hD.2.1 hinit_s
  obtain ⟨hs1, _, _, _, _⟩ := identifyEmps_state (empKeys employees) st st1 hi
  refine ⟨?_, fun st day sh e => mem_candFilter⟩
  intro e he
  rw [hsch, hs1]
  calc weekHours st.schedule e.id = st.employee_hours e.id := (hS e he).symm
  _ ≤ e.max_hours := hH e he

/-- Witness for C1: a one-employee, zero-site week runs to completion
with an empty schedule; the instantiated cap bound and the instantiated
pool characterisation hold. -/
theorem claim_c1_hour_cap_witness :
    weekHours wOut.schedule wEmp.id ≤ wEmp.max_hours ∧
    (wEmp ∈ candFilter [wEmp] "Monday" 12 initState ↔
      wEmp ∈ [wEmp] ∧ "Monday" ∈ wEmp.availability ∧
      initState.employee_hours wEmp.id + 12 ≤ wEmp.max_hours ∧
      initState.schedule wEmp.id "Monday" = []) :=
  ⟨(claim_c1_hour_cap [wEmp] [] wOut (by decide) (by decide)
      (by with_unfolding_all rfl)).1 wEmp (List.mem_singleton_self wEmp),
    (claim_c1_hour_cap [wEmp] [] wOut (by decide) (by decide)
      (by with_unfolding_all rfl)).2 initState "Monday" 12 wEmp⟩

/-! ### Claim C2 — at most one assignment per employee per day -/

/-- C2: with unique employee ids, any produced schedule holds at most
one assignment per employee per day: once an employee is assigned on a
day, the pool test excludes them for every later site that day. -/
theorem claim_c2_one_shift_per_day :
    ∀ (employees : List Employee) (sites : List Site) (out : GenOutput),
      (employees.map Employee.id).Nodup →
      generate employees sites = some out →
      ∀ e ∈ employees, ∀ d, (out.schedule e.id d).length ≤ 1 := by
  intro employees sites out hids hgen e he d
  obtain ⟨st, st1, hp, hi, hsch, _, _, _⟩ := generate_decomp hgen
  have hinit : LenInv employees initState := by
    intro e _ d
    show ([] : List Shift).length ≤ 1
    simp
  have hL : LenInv employees st :=
    (processDays_invs hids weekDays (fun d hd => hd) initState st hp).2.2 hinit
  obtain ⟨hs1, _, _, _, _⟩ := identifyEmps_state (empKeys employees) st st1 hi
  rw [hsch, hs1]
  exact hL e he d

/-- Witness for C2: a one-employee, zero-site week runs to completion
with an empty schedule, and the instantiated bound holds on Wednesday. -/
theorem claim_c2_one_shift_per_day_witness :
    (wOut.schedule wEmp2.id "Wednesday").length ≤ 1 :=
  claim_c2_one_shift_per_day [wEmp2] [] wOut (by decide)
    (by with_unfolding_all rfl) wEmp2 (List.mem_singleton_self wEmp2) "Wednesday"

/-! ### Assignment counting for claim C3 -/

/-- The alert list is untouched by any assignment fold. -/
theorem foldAssign_alerts (site : Site) (day : String) (sh : ℚ) :
    ∀ (cs : List Candidate) (st : GenState),
      (cs.foldl (assignOne site day sh) st).alerts = st.alerts := by
  intro cs
  induction cs with
  | nil => intro st; rfl
  | cons c cs ih => intro st; rw [List.foldl_cons, ih, assignOne_alerts]

/-- The unassigned list is untouched by any assignment fold. -/
theorem foldAssign_unassigned (site : Site) (day : String) (sh : ℚ) :
    ∀ (cs : List Candidate) (st : GenState),
      (cs.foldl (assignOne site day sh) st).unassigned_shifts = st.unassigned_shifts := by
  intro cs
  induction cs with
  | nil => intro st; rfl
  | cons c cs ih => intro st; rw [List.foldl_cons, ih, assignOne_unassigned]

/-- One assignment raises the day-and-site assignment count by exactly
one and leaves every other (day, site id) count unchanged. -/
theorem asgCount_assignOne {employees : List Employee}
    (hids : (employees.map Employee.id).Nodup) {site : Site} {day : String}
    {sh : ℚ} {st : GenState} {c : Candidate} (hc : c.emp ∈ employees) :
    asgCount employees (assignOne site day sh st c).schedule day site.id =
      asgCount employees st.schedule day site.id + 1 ∧
    ∀ d sid, (d ≠ day ∨ sid ≠ site.id) →
      asgCount employees (assignOne site day sh st c).schedule d sid =
        asgCount employees st.schedule d sid := by
  have hnd : employees.Nodup := hids.of_map
  constructor
  · unfold asgCount
    refine sum_map_update hnd hc ?_ ?_
    · rw [assignOne_schedule, if_pos rfl, if_pos rfl, List.filter_append,
        List.length_append]
      have : (List.filter (fun x => x.site_id == site.id) [mkShift site sh]).length = 1 := by
        simp [mkShift]
      rw [this]
    · intro b _ hb
      have hbid : b.id ≠ c.emp.id := fun h =>
        hb (employee_eq_of_id_eq hids (by assumption) hc h)
      rw [assignOne_schedule, if_neg hbid]
  · intro d sid hdiff
    unfold asgCount
    refine sum_map_congr ?_
    intro b _
    rw [assignOne_schedule]
    by_cases hbid : b.id = c.emp.id
    · rw [if_pos hbid]
      by_cases hd : d = day
      · rcases hdiff with h | h
        · exact absurd hd h
        · rw [if_pos hd, hd, List.filter_append, List.length_append]
          have : (List.filter (fun x => x.site_id == sid) [mkShift site sh]).length = 0 := by
            simp [mkShift]
            exact fun hcontra => absurd hcontra.symm h
          rw [this, Nat.add_zero]
      · rw [if_neg hd]
    · rw [if_neg hbid]

/-- Counting effect of the whole assignment fold. -/
theorem asgCount_fold {employees : List Employee}
    (hids : (employees.map Employee.id).Nodup) {site : Site} {day : String}
    {sh : ℚ} :
    ∀ (cs : List Candidate), (∀ c ∈ cs, c.emp ∈ employees) →
    ∀ st : GenState,
      asgCount employees (cs.foldl (assignOne site day sh) st).schedule day site.id =
        asgCount employees st.schedule day site.id + cs.length ∧
      ∀ d sid, (d ≠ day ∨ sid ≠ site.id) →
        asgCount employees (cs.foldl (assignOne site day sh) st).schedule d sid =
          asgCount employees st.schedule d sid := by
  intro cs
  induction cs with
  | nil =>
    intro _ st
    exact ⟨by simp, fun d sid _ => rfl⟩
  | cons c cs ih =>
    intro hmem st
    obtain ⟨h1, h2⟩ := asgCount_assignOne hids (hmem c (List.mem_cons_self c cs))
    obtain ⟨ih1, ih2⟩ := ih (fun x hx => hmem x (List.mem_cons_of_mem c hx))
      (assignOne site day sh st c)
    rw [List.foldl_cons]
    constructor
    · rw [ih1, h1, List.length_cons]
      ring
    · intro d sid hdiff
      rw [ih2 d sid hdiff, h2 d sid hdiff]

/-- Full effect of one site's processing on the quantities claim C3
tracks: some `n ≤ guards_required` candidates are assigned, the site's
count for the day grows by `n`, every other (day, site) count is
untouched, and the understaffing record and error alert are appended
exactly when `n` falls short. -/
theorem processSite_effect {employees : List Employee} {day : String}
    {st st' : GenState} {site : Site}
    (hids : (employees.map Employee.id).Nodup)
    (h : processSite employees day st site = some st') :
    ∃ n, n ≤ site.guards_required ∧
      asgCount employees st'.schedule day site.id =
        asgCount employees st.schedule day site.id + n ∧
      (∀ d sid, (d ≠ day ∨ sid ≠ site.id) →
        asgCount employees st'.schedule d sid = asgCount employees st.schedule d sid) ∧
      st'.unassigned_shifts = st.unassigned_shifts ++
        (if n < site.guards_required then
          [⟨day, site.name, site.guards_required, n⟩] else []) ∧
      st'.alerts = st.alerts ++
        (if n < site.guards_required then
          [errAlertOf ⟨day, site.name, site.guards_required, n⟩] else []) := by
  obtain ⟨sh, cands, hsh, hb, hst'⟩ := processSite_decomp h
  obtain ⟨hlen, hnodup, hprops⟩ := chosen_spec hids hb
  obtain ⟨sh2, cands2, hsh2, hb2, hsched2, hhours2, _⟩ := processSite_state_eq h
  have hsh_eq : sh2 = sh := by rw [hsh] at hsh2; cases hsh2; rfl
  have hb_eq : cands2 = cands := by
    rw [hsh_eq] at hb2
    rw [hb] at hb2
    cases hb2
    rfl
  rw [hsh_eq, hb_eq] at hsched2
  obtain ⟨hcount, hother⟩ := asgCount_fold hids
    (chooseCandidates site.guards_required cands)
    (fun c hc => (hprops c hc).1) st
  refine ⟨(chooseCandidates site.guards_required cands).length, hlen, ?_, ?_, ?_, ?_⟩
  · rw [hsched2]
    exact hcount
  · intro d sid hdiff
    rw [hsched2]
    exact hother d sid hdiff
  · rw [hst']
    split
    · rw [foldAssign_unassigned]
    · rw [foldAssign_unassigned, List.append_nil]
  · rw [hst']
    split
    · rw [foldAssign_alerts]
    · rw [foldAssign_alerts, List.append_nil]

/-! ### The error-alert correspondence (claim C3) -/

/-- Alerts of other severities contribute nothing to the error filter. -/
theorem filter_error_nil {ws : List Alert} (h : ∀ a ∈ ws, a.type ≠ "error") :
    ws.filter (fun a => a.type == "error") = [] := by
  rw [List.filter_eq_nil_iff]
  intro a ha
  simp only [beq_iff_eq]
  exact h a ha

/-- One site's processing keeps error alerts and understaffing records
in lockstep. -/
theorem processSite_errinv {employees : List Employee} {day : String}
    {st st' : GenState} {site : Site}
    (hids : (employees.map Employee.id).Nodup)
    (h : processSite employees day st site = some st') :
    ErrInv st → ErrInv st' := by
  obtain ⟨n, _, _, _, hu, ha⟩ := processSite_effect hids h
  intro hinv
  unfold ErrInv at hinv ⊢
  rw [hu, ha, List.filter_append, List.map_append, hinv]
  congr 1
  split
  · simp [errAlertOf]
  · simp

/-- The warning pass keeps error alerts and understaffing records in
lockstep. -/
theorem warningPass_errinv {employees : List Employee} {st : GenState} :
    ErrInv st → ErrInv (warningPass employees st) := by
  obtain ⟨_, _, hu, _, ws, ha, hw⟩ := warningPass_state employees st
  intro hinv
  unfold ErrInv at hinv ⊢
  rw [hu, ha, List.filter_append, hinv,
    filter_error_nil (fun a haw => by rw [hw a haw]; decide), List.append_nil]

/-- The opportunity pass keeps error alerts and understaffing records
in lockstep. -/
theorem identifyEmps_errinv {employees : List Employee} {keys : List Nat}
    {st st' : GenState} (h : identifyEmps employees keys st = some st') :
    ErrInv st → ErrInv st' := by
  obtain ⟨_, _, hu, os, _, ha⟩ := identifyEmps_state keys st st' h
  intro hinv
  unfold ErrInv at hinv ⊢
  rw [hu, ha, List.filter_append, hinv, filter_error_nil ?_, List.append_nil]
  intro a haw
  obtain ⟨o, _, rfl⟩ := List.mem_map.mp haw
  simp [oppAlertOf]

/-- A day's site loop keeps error alerts and understaffing records in
lockstep. -/
theorem processSites_errinv {employees : List Employee} {day : String}
    (hids : (employees.map Employee.id).Nodup) :
    ∀ (ds : List Site) (st st' : GenState),
      processSites employees day ds st = some st' → ErrInv st → ErrInv st' := by
  intro ds
  induction ds with
  | nil =>
    intro st st' h
    cases h
    exact id
  | cons s ds ih =>
    intro st st' h
    rw [processSites] at h
    split at h
    · cases h
    · rename_i st1 hp
      intro hinv
      exact ih st1 st' h (processSite_errinv hids hp hinv)

/-- The seven-day loop keeps error alerts and understaffing records in
lockstep. -/
theorem processDays_errinv {employees : List Employee} {sites : List Site}
    (hids : (employees.map Employee.id).Nodup) :
    ∀ (ds : List String) (st st' : GenState),
      processDays employees sites ds st = some st' → ErrInv st → ErrInv st' := by
  intro ds
  induction ds with
  | nil =>
    intro st st' h
    cases h
    exact id
  | cons d ds ih =>
    intro st st' h
    rw [processDays] at h
    split at h
    · cases h
    · rename_i st1 hp
      intro hinv
      obtain ⟨st2, hps, hw⟩ := assign_day_decomp hp
      refine ih st1 st' h ?_
      rw [hw]
      exact warningPass_errinv (processSites_errinv hids (daySites sites d) st st2 hps hinv)

/-! ### Locality of the per-site accounting -/

/-- Processing a different site (by id and name) or a different day
leaves a pair's assignment count and understaffing records untouched. -/
theorem processSite_untouched {employees : List Employee} {d : String} {s : Site}
    {day : String} {site : Site} {st st' : GenState}
    (hids : (employees.map Employee.id).Nodup)
    (hdiff : day ≠ d ∨ (site.id ≠ s.id ∧ site.name ≠ s.name))
    (h : processSite employees day st site = some st') :
    asgCount employees st'.schedule d s.id = asgCount employees st.schedule d s.id ∧
    st'.unassigned_shifts.filter (sitePred d s.name) =
      st.unassigned_shifts.filter (sitePred d s.name) := by
  obtain ⟨n, _, _, hother, hu, _⟩ := processSite_effect hids h
  constructor
  · apply hother
    rcases hdiff with h1 | ⟨h2, _⟩
    · exact Or.inl (fun hc => h1 hc.symm)
    · exact Or.inr (fun hc => h2 hc.symm)
  · rw [hu, List.filter_append]
    have hpred : sitePred d s.name ⟨day, site.name, site.guards_required, n⟩ = false := by
      rcases hdiff with h1 | ⟨_, h3⟩
      · simp [sitePred, h1]
      · simp [sitePred, h3]
    have h0 : (if n < site.guards_required then
        ([⟨day, site.name, site.guards_required, n⟩] : List UnassignedShift)
        else []).filter (sitePred d s.name) = [] := by
      split
      · simp [hpred]
      · rfl
    rw [h0, List.append_nil]

/-- Processing a site on its own day from a fresh state establishes the
claimed accounting for that (day, site) pair. -/
theorem processSite_establish {employees : List Employee} {d : String} {s : Site}
    {st st' : GenState}
    (hids : (employees.map Employee.id).Nodup)
    (hfresh : C3Fresh employees d s st)
    (h : processSite employees d st s = some st') :
    C3At employees d s st' := by
  obtain ⟨n, hle, hcount, _, hu, _⟩ := processSite_effect hids h
  obtain ⟨hc0, hf0⟩ := hfresh
  have hcnt : asgCount employees st'.schedule d s.id = n := by
    rw [hcount, hc0, Nat.zero_add]
  refine ⟨by rw [hcnt]; exact hle, ?_⟩
  rw [hu, List.filter_append, hf0, List.nil_append, hcnt]
  split
  · simp [sitePred]
  · rfl

/-- C3's per-pair accounting depends only on the pair's count and
filtered records, so any untouched step preserves it. -/
theorem c3at_of_untouched {employees : List Employee} {d : String} {s : Site}
    {st st' : GenState}
    (hcnt : asgCount employees st'.schedule d s.id = asgCount employees st.schedule d s.id)
    (hfil : st'.unassigned_shifts.filter (sitePred d s.name) =
      st.unassigned_shifts.filter (sitePred d s.name)) :
    (C3At employees d s st → C3At employees d s st') ∧
    (C3Fresh employees d s st → C3Fresh employees d s st') := by
  constructor
  · intro ⟨h1, h2⟩
    exact ⟨by rw [hcnt]; exact h1, by rw [hfil, hcnt]; exact h2⟩
  · intro ⟨h1, h2⟩
    exact ⟨by rw [hcnt]; exact h1, by rw [hfil]; exact h2⟩

/-- A site loop consisting of other sites (or run on another day)
leaves the pair's accounting untouched. -/
theorem processSites_untouched {employees : List Employee} {d : String} {s : Site}
    {day : String} (hids : (employees.map Employee.id).Nodup) :
    ∀ (ds : List Site),
      (∀ site ∈ ds, day ≠ d ∨ (site.id ≠ s.id ∧ site.name ≠ s.name)) →
      ∀ (st st' : GenState), processSites employees day ds st = some st' →
      asgCount employees st'.schedule d s.id = asgCount employees st.schedule d s.id ∧
      st'.unassigned_shifts.filter (sitePred d s.name) =
        st.unassigned_shifts.filter (sitePred d s.name) := by
  intro ds
  induction ds with
  | nil =>
    intro _ st st' h
    cases h
    exact ⟨rfl, rfl⟩
  | cons s0 ds ih =>
    intro hdiff st st' h
    rw [processSites] at h
    split at h
    · cases h
    · rename_i st1 hp
      obtain ⟨h1, h2⟩ := processSite_untouched hids (hdiff s0 (List.mem_cons_self s0 ds)) hp
      obtain ⟨h3, h4⟩ := ih (fun x hx => hdiff x (List.mem_cons_of_mem s0 hx)) st1 st' h
      exact ⟨h3.trans h1, h4.trans h2⟩

/-- A day's full site loop, when the list contains the pair's site once
(guaranteed by distinct site ids and names) and starts fresh,
establishes the pair's accounting. -/
theorem processSites_establish {employees : List Employee} {d : String} {s : Site}
    (hids : (employees.map Employee.id).Nodup) :
    ∀ (ds : List Site), (ds.map Site.id).Nodup → (ds.map Site.name).Nodup →
      s ∈ ds →
      ∀ (st st' : GenState), processSites employees d ds st = some st' →
      C3Fresh employees d s st → C3At employees d s st' := by
  intro ds
  induction ds with
  | nil =>
    intro _ _ hmem
    cases hmem
  | cons s0 ds ih =>
    intro hdid hdnm hmem st st' h hfresh
    rw [processSites] at h
    split at h
    · cases h
    · rename_i st1 hp
      rw [List.map_cons, List.nodup_cons] at hdid hdnm
      rcases List.mem_cons.mp hmem with rfl | hmem'
      · have hat : C3At employees d s st1 := processSite_establish hids hfresh hp
        have hdiff : ∀ site ∈ ds, (d ≠ d ∨ (site.id ≠ s.id ∧ site.name ≠ s.name)) := by
          intro site hsite
          refine Or.inr ⟨?_, ?_⟩
          · intro hc
            exact hdid.1 (hc ▸ List.mem_map_of_mem Site.id hsite)
          · intro hc
            exact hdnm.1 (hc ▸ List.mem_map_of_mem Site.name hsite)
        obtain ⟨h1, h2⟩ := processSites_untouched hids ds hdiff st1 st' h
        exact (c3at_of_untouched h1 h2).1 hat
      · have hne : s0.id ≠ s.id ∧ s0.name ≠ s.name := by
          constructor
          · intro hc
            exact hdid.1 (hc ▸ List.mem_map_of_mem Site.id hmem')
          · intro hc
            exact hdnm.1 (hc ▸ List.mem_map_of_mem Site.name hmem')
        obtain ⟨h1, h2⟩ := processSite_untouched hids (Or.inr hne) hp
        exact ih hdid.2 hdnm.2 hmem' st1 st' h ((c3at_of_untouched h1 h2).2 hfresh)

/-- Mapping any key over the day's site list stays duplicate-free when
it is duplicate-free over the input sites. -/
theorem daySites_nodup_map {sites : List Site} {day : String} {β : Type}
    {f : Site → β} (h : (sites.map f).Nodup) :
    ((daySites sites day).map f).Nodup := by
  have h1 : ((sites.filter (fun s => decide (day ∈ s.days_operation))).map f).Nodup :=
    ((List.filter_sublist sites).map f).nodup h
  exact (((List.perm_insertionSort siteGE _).map f)).nodup_iff.mpr h1

/-- A different day's assignment leaves a pair's accounting untouched. -/
theorem assign_day_untouched {employees : List Employee} {sites : List Site}
    {d : String} {s : Site} {day : String} {st st' : GenState}
    (hids : (employees.map Employee.id).Nodup) (hday : day ≠ d)
    (h : assign_day employees sites day st = some st') :
    asgCount employees st'.schedule d s.id = asgCount employees st.schedule d s.id ∧
    st'.unassigned_shifts.filter (sitePred d s.name) =
      st.unassigned_shifts.filter (sitePred d s.name) := by
  obtain ⟨st1, hp, rfl⟩ := assign_day_decomp h
  obtain ⟨hsch, _, hu, _, _⟩ := warningPass_state employees st1
  obtain ⟨h1, h2⟩ := processSites_untouched hids (daySites sites day)
    (fun site _ => Or.inl hday) st st1 hp
  constructor
  · rw [hsch]
    exact h1
  · rw [hu]
    exact h2

/-- The pair's own day establishes the pair's accounting. -/
theorem assign_day_establish {employees : List Employee} {sites : List Site}
    {d : String} {s : Site} {st st' : GenState}
    (hids : (employees.map Employee.id).Nodup)
    (hsid : (sites.map Site.id).Nodup) (hsnm : (sites.map Site.name).Nodup)
    (hs : s ∈ sites) (hop : d ∈ s.days_operation)
    (h : assign_day employees sites d st = some st') :
    C3Fresh employees d s st → C3At employees d s st' := by
  obtain ⟨st1, hp, rfl⟩ := assign_day_decomp h
  intro hfresh
  have hat := processSites_establish hids (daySites sites d)
    (daySites_nodup_map hsid) (daySites_nodup_map hsnm)
    (mem_daySites.mpr ⟨hs, hop⟩) st st1 hp hfresh
  obtain ⟨hsch, _, hu, _, _⟩ := warningPass_state employees st1
  exact (c3at_of_untouched (by rw [hsch]) (by rw [hu])).1 hat

/-- Days other than the pair's day leave its accounting untouched. -/
theorem processDays_untouched {employees : List Employee} {sites : List Site}
    {d : String} {s : Site} (hids : (employees.map Employee.id).Nodup) :
    ∀ (dl : List String), d ∉ dl →
    ∀ (st st' : GenState), processDays employees sites dl st = some st' →
      asgCount employees st'.schedule d s.id = asgCount employees st.schedule d s.id ∧
      st'.unassigned_shifts.filter (sitePred d s.name) =
        st.unassigned_shifts.filter (sitePred d s.name) := by
  intro dl
  induction dl with
  | nil =>
    intro _ st st' h
    cases h
    exact ⟨rfl, rfl⟩
  | cons d0 dl ih =>
    intro hnot st st' h
    rw [processDays] at h
    split at h
    · cases h
    · rename_i st1 hp
      have hd0 : d0 ≠ d := fun hc => hnot (hc ▸ List.mem_cons_self d0 dl)
      obtain ⟨h1, h2⟩ := assign_day_untouched hids hd0 hp
      obtain ⟨h3, h4⟩ := ih (fun hc => hnot (List.mem_cons_of_mem d0 hc)) st1 st' h
      exact ⟨h3.trans h1, h4.trans h2⟩

/-- Running the week from a fresh state establishes the pair's
accounting, given the pair's day occurs once in the day list. -/
theorem processDays_establish {employees : List Employee} {sites : List Site}
    {d : String} {s : Site}
    (hids : (employees.map Employee.id).Nodup)
    (hsid : (sites.map Site.id).Nodup) (hsnm : (sites.map Site.name).Nodup)
    (hs : s ∈ sites) (hop : d ∈ s.days_operation) :
    ∀ (dl : List String), dl.Nodup → d ∈ dl →
    ∀ (st st' : GenState), processDays employees sites dl st = some st' →
      C3Fresh employees d s st → C3At employees d s st' := by
  intro dl
  induction dl with
  | nil =>
    intro _ hmem
    cases hmem
  | cons d0 dl ih =>
    intro hnd hmem st st' h hfresh
    obtain ⟨hd0, hnd'⟩ := List.nodup_cons.mp hnd
    rw [processDays] at h
    split at h
    · cases h
    · rename_i st1 hp
      rcases List.mem_cons.mp hmem with rfl | hmem'
      · have hat := assign_day_establish hids hsid hsnm hs hop hp hfresh
        obtain ⟨h1, h2⟩ := processDays_untouched hids dl hd0 st1 st' h
        exact (c3at_of_untouched h1 h2).1 hat
      · have hd0d : d0 ≠ d := fun hc => hd0 (hc ▸ hmem')
        obtain ⟨h1, h2⟩ := assign_day_untouched hids hd0d hp
        exact ih hnd' hmem' st1 st' h ((c3at_of_untouched h1 h2).2 hfresh)

/-! ### Completion: understaffing is data, not an exception -/

/-- Candidate building succeeds whenever every pool member's distance to
the site is computable. -/
theorem buildCandidates_total {site : Site} {st : GenState} :
    ∀ (l : List Employee),
      (∀ emp ∈ l, (estimate_distance emp.postcode site.postcode).isSome) →
      ∃ cs, buildCandidates site st l = some cs := by
  intro l
  induction l with
  | nil => exact fun _ => ⟨[], rfl⟩
  | cons emp rest ih =>
    intro hall
    obtain ⟨dist, hd⟩ := Option.isSome_iff_exists.mp
      (hall emp (List.mem_cons_self emp rest))
    obtain ⟨cs, hr⟩ := ih (fun x hx => hall x (List.mem_cons_of_mem emp hx))
    refine ⟨⟨emp, dist, st.employee_hours emp.id⟩ :: cs, ?_⟩
    simp only [buildCandidates, hd, hr]

/-- One site's processing succeeds whenever the shift duration parses
and every employee's distance to the site is computable. -/
theorem processSite_total {employees : List Employee} {day : String}
    {st : GenState} {site : Site}
    (ht : (calculate_shift_hours site.shift_start site.shift_end).isSome)
    (hd : ∀ e ∈ employees, (estimate_distance e.postcode site.postcode).isSome) :
    ∃ st', processSite employees day st site = some st' := by
  obtain ⟨sh, hsh⟩ := Option.isSome_iff_exists.mp ht
  obtain ⟨cs, hcs⟩ := @buildCandidates_total site st (candFilter employees day sh st)
    (fun emp hemp => hd emp (mem_candFilter.mp hemp).1)
  refine Option.isSome_iff_exists.mp ?_
  simp only [processSite, hsh, hcs, Option.isSome_some]

/-- A day's site loop runs to completion under the same conditions. -/
theorem processSites_total {employees : List Employee} {day : String}
    {sites : List Site}
    (ht : ∀ s ∈ sites, (calculate_shift_hours s.shift_start s.shift_end).isSome)
    (hd : ∀ e ∈ employees, ∀ s ∈ sites, (estimate_distance e.postcode s.postcode).isSome) :
    ∀ (ds : List Site), (∀ s ∈ ds, s ∈ sites) →
    ∀ (st : GenState), ∃ st', processSites employees day ds st = some st' := by
  intro ds
  induction ds with
  | nil => exact fun _ st => ⟨st, rfl⟩
  | cons s0 ds ih =>
    intro hsub st
    have hs0 : s0 ∈ sites := hsub s0 (List.mem_cons_self s0 ds)
    obtain ⟨st1, h1⟩ := @processSite_total employees day st s0
      (ht s0 hs0) (fun e he => hd e he s0 hs0)
    obtain ⟨st', h2⟩ := ih (fun x hx => hsub x (List.mem_cons_of_mem s0 hx)) st1
    refine ⟨st', ?_⟩
    simp only [processSites, h1]
    exact h2

/-- The seven-day loop runs to completion under the same conditions. -/
theorem processDays_total {employees : List Employee} {sites : List Site}
    (ht : ∀ s ∈ sites, (calculate_shift_hours s.shift_start s.shift_end).isSome)
    (hd : ∀ e ∈ employees, ∀ s ∈ sites, (estimate_distance e.postcode s.postcode).isSome) :
    ∀ (dl : List String) (st : GenState),
      ∃ st', processDays employees sites dl st = some st' := by
  intro dl
  induction dl with
  | nil => exact fun st => ⟨st, rfl⟩
  | cons d0 dl ih =>
    intro st
    obtain ⟨st1, h1⟩ := processSites_total ht hd (daySites sites d0)
      (fun x hx => (mem_daySites.mp hx).1) st
    obtain ⟨st', h2⟩ := ih (warningPass employees st1)
    have ha : assign_day employees sites d0 st = some (warningPass employees st1) := by
      unfold assign_day
      rw [h1]
    refine ⟨st', ?_⟩
    rw [processDays, ha]
    exact h2

/-- One pair check succeeds when all scheduled shifts come from input
sites and all pairwise site distances are computable. -/
theorem checkPair_total {sites : List Site} {emp : Employee} {d1 d2 : String}
    {st : GenState}
    (hsrc : SchedSrc sites st)
    (hdss : ∀ s ∈ sites, ∀ s' ∈ sites, (estimate_distance s.postcode s'.postcode).isSome) :
    ∃ st', checkPair emp d1 d2 st = some st' := by
  unfold checkPair
  split
  · rename_i today tomorrow hm1 hm2
    split
    · obtain ⟨s1, hs1, hp1⟩ := hsrc emp.id d1 today
        (by rw [hm1]; exact List.mem_singleton_self today)
      obtain ⟨s2, hs2, hp2⟩ := hsrc emp.id d2 tomorrow
        (by rw [hm2]; exact List.mem_singleton_self tomorrow)
      obtain ⟨dist, hdist⟩ : ∃ dist,
          estimate_distance today.postcode tomorrow.postcode = some dist := by
        rw [hp1, hp2]
        exact Option.isSome_iff_exists.mp (hdss s1 hs1 s2 hs2)
      refine Option.isSome_iff_exists.mp ?_
      simp only [hdist]
      split
      · rfl
      · rfl
    · exact ⟨_, rfl⟩
  · exact ⟨_, rfl⟩

/-- A run of pair checks succeeds under the same conditions. -/
theorem checkPairs_total {sites : List Site} {emp : Employee}
    (hdss : ∀ s ∈ sites, ∀ s' ∈ sites, (estimate_distance s.postcode s'.postcode).isSome) :
    ∀ (ps : List (String × String)) (st : GenState), SchedSrc sites st →
      ∃ st', checkPairs emp ps st = some st' := by
  intro ps
  induction ps with
  | nil => exact fun st _ => ⟨st, rfl⟩
  | cons p ps ih =>
    intro st hsrc
    obtain ⟨st1, h1⟩ := @checkPair_total sites emp p.1 p.2 st hsrc hdss
    have hsrc1 : SchedSrc sites st1 := by
      obtain ⟨hs, _, _, _, _⟩ := checkPair_state h1
      intro i d x hx
      rw [hs] at hx
      exact hsrc i d x hx
    obtain ⟨st', h2⟩ := ih st1 hsrc1
    refine ⟨st', ?_⟩
    simp only [checkPairs, h1]
    exact h2

/-- The whole opportunity pass succeeds under the same conditions. -/
theorem identifyEmps_total {sites : List Site} {employees : List Employee}
    (hdss : ∀ s ∈ sites, ∀ s' ∈ sites, (estimate_distance s.postcode s'.postcode).isSome) :
    ∀ (keys : List Nat) (st : GenState), SchedSrc sites st →
      ∃ st', identifyEmps employees keys st = some st' := by
  intro keys
  induction keys with
  | nil => exact fun st _ => ⟨st, rfl⟩
  | cons i keys ih =>
    intro st hsrc
    cases hf : employees.find? (fun e => e.id == i) with
    | none =>
      obtain ⟨st', h2⟩ := ih st hsrc
      refine ⟨st', ?_⟩
      simp only [identifyEmps, hf]
      exact h2
    | some emp =>
      by_cases hw : emp.willing_24hr
      · obtain ⟨st1, h1⟩ := @checkPairs_total sites emp hdss dayPairs st hsrc
        have hsrc1 : SchedSrc sites st1 := by
          obtain ⟨hs, _, _, _, _⟩ := checkPairs_state dayPairs st st1 h1
          intro i' d x hx
          rw [hs] at hx
          exact hsrc i' d x hx
        obtain ⟨st', h2⟩ := ih st1 hsrc1
        refine ⟨st', ?_⟩
        simp only [identifyEmps, hf, hw, if_true]
        rw [h1]
        exact h2
      · obtain ⟨st', h2⟩ := ih st hsrc
        refine ⟨st', ?_⟩
        simp only [identifyEmps, hf]
        rw [if_neg hw]
        exact h2

/-- A full run completes whenever all site shift times parse and all
needed distances are computable. -/
theorem generate_total {employees : List Employee} {sites : List Site}
    (hids : (employees.map Employee.id).Nodup)
    (ht : ∀ s ∈ sites, (calculate_shift_hours s.shift_start s.shift_end).isSome)
    (hdes : ∀ e ∈ employees, ∀ s ∈ sites, (estimate_distance e.postcode s.postcode).isSome)
    (hdss : ∀ s ∈ sites, ∀ s' ∈ sites, (estimate_distance s.postcode s'.postcode).isSome) :
    ∃ out, generate employees sites = some out := by
  obtain ⟨st, h1⟩ := processDays_total ht hdes weekDays initState
  have hsrc0 : SchedSrc sites initState := fun i d x hx => absurd hx (List.not_mem_nil x)
  have hsrc : SchedSrc sites st := processDays_schedsrc hids weekDays initState st h1 hsrc0
  obtain ⟨st1, h2⟩ := @identifyEmps_total sites employees hdss (empKeys employees) st hsrc
  refine ⟨⟨st1.schedule, st1.alerts, st1.unassigned_shifts, st1.opportunities_24hr⟩, ?_⟩
  simp only [generate, h1, identify_24hr_opportunities, h2]

/-- The empty schedule holds no assignment for any site. -/
theorem asgCount_init (employees : List Employee) (d : String) (sid : Nat) :
    asgCount employees (initState.schedule) d sid = 0 := by
  unfold asgCount initState
  induction employees with
  | nil => rfl
  | cons e es ih => simp

/-! ### Claim C3 — understaffing accounting -/

/-- C3: under the spec's well-formedness conditions (unique employee
ids, unique site ids and names, parseable site shift times, computable
distances) the run completes — understaffing never raises — and for
every (day, site) pair processed: the number of assignments for the
site that day is at most the required count; exactly one
UnassignedShift carrying that day, the site's name, the required count
and the assigned count is recorded iff the assigned count falls short
(and none otherwise); and the error alerts are exactly the
understaffing records' alerts in order. -/
theorem claim_c3_understaffing :
    ∀ (employees : List Employee) (sites : List Site),
      (employees.map Employee.id).Nodup →
      (sites.map Site.id).Nodup →
      (sites.map Site.name).Nodup →
      (∀ s ∈ sites, (calculate_shift_hours s.shift_start s.shift_end).isSome) →
      (∀ e ∈ employees, ∀ s ∈ sites, (estimate_distance e.postcode s.postcode).isSome) →
      (∀ s ∈ sites, ∀ s' ∈ sites, (estimate_distance s.postcode s'.postcode).isSome) →
      ∃ out, generate employees sites = some out ∧
        (∀ s ∈ sites, ∀ d ∈ weekDays, d ∈ s.days_operation →
          asgCount employees out.schedule d s.id ≤ s.guards_required ∧
          out.unassigned_shifts.filter (sitePred d s.name) =
            (if asgCount employees out.schedule d s.id < s.guards_required then
              [⟨d, s.name, s.guards_required, asgCount employees out.schedule d s.id⟩]
            else []) ∧
          ((asgCount employees out.schedule d s.id < s.guards_required) ↔
            ∃ u ∈ out.unassigned_shifts, u.day = d ∧ u.site = s.name)) ∧
        out.alerts.filter (fun a => a.type == "error") =
          out.unassigned_shifts.map errAlertOf := by
  intro employees sites hids hsid hsnm ht hdes hdss
  obtain ⟨out, hgen⟩ := generate_total hids ht hdes hdss
  obtain ⟨st, st1, hp, hi, hsch, hal, hun, _⟩ := generate_decomp hgen
  obtain ⟨hs1, _, hu1, _, _⟩ := identifyEmps_state (empKeys employees) st st1 hi
  refine ⟨out, hgen, ?_, ?_⟩
  · intro s hs d hd hop
    have hfresh : C3Fresh employees d s initState :=
      ⟨asgCount_init employees d s.id, rfl⟩
    have hat : C3At employees d s st :=
      processDays_establish hids hsid hsnm hs hop weekDays weekDays_nodup hd
        initState st hp hfresh
    have hat1 : C3At employees d s st1 :=
      (c3at_of_untouched (by rw [hs1]) (by rw [hu1])).1 hat
    obtain ⟨h1, h2⟩ := hat1
    have hcnt : asgCount employees out.schedule d s.id =
        asgCount employees st1.schedule d s.id := by rw [hsch]
    refine ⟨by rw [hcnt]; exact h1, by rw [hcnt, hun]; exact h2, ?_, ?_⟩
    · intro hlt
      rw [hcnt] at hlt
      rw [if_pos hlt] at h2
      have hmem : (⟨d, s.name, s.guards_required,
          asgCount employees st1.schedule d s.id⟩ : UnassignedShift) ∈
          st1.unassigned_shifts.filter (sitePred d s.name) := by
        rw [h2]
        exact List.mem_singleton_self _
      refine ⟨_, by rw [hun]; exact (List.mem_filter.mp hmem).1, rfl, rfl⟩
    · rintro ⟨u, humem, hud, hus⟩
      rw [hcnt]
      by_contra hge
      rw [if_neg hge] at h2
      have : u ∈ st1.unassigned_shifts.filter (sitePred d s.name) := by
        refine List.mem_filter.mpr ⟨by rw [← hun]; exact humem, ?_⟩
        simp [sitePred, hud, hus]
      rw [h2] at this
      exact absurd this (List.not_mem_nil u)
  · have herr0 : ErrInv initState := rfl
    have herr : ErrInv st := processDays_errinv hids weekDays initState st hp herr0
    have herr1 : ErrInv st1 := identifyEmps_errinv hi herr
    unfold ErrInv at herr1
    rw [hal, hun]
    exact herr1

/-- Witness for C3: one employee, one site needing two guards every
day; all hypotheses hold at this concrete input and the run completes
with the claimed accounting. -/
theorem claim_c3_understaffing_witness :
    ∃ out, generate
        [⟨1, "John Smith", "07700 123456", "LE1 1AA", "SIA123456", 48,
          ["Monday", "Tuesday"], true⟩]
        [⟨1, "Geddington-B", "Taz", "NN18", 2, "18:00", "06:00", ["Monday"]⟩] = some out ∧
      (∀ s ∈ [(⟨1, "Geddington-B", "Taz", "NN18", 2, "18:00", "06:00",
          ["Monday"]⟩ : Site)], ∀ d ∈ weekDays, d ∈ s.days_operation →
        asgCount [⟨1, "John Smith", "07700 123456", "LE1 1AA", "SIA123456", 48,
            ["Monday", "Tuesday"], true⟩] out.schedule d s.id ≤ s.guards_required ∧
        out.unassigned_shifts.filter (sitePred d s.name) =
          (if asgCount [⟨1, "John Smith", "07700 123456", "LE1 1AA", "SIA123456", 48,
              ["Monday", "Tuesday"], true⟩] out.schedule d s.id < s.guards_required then
            [⟨d, s.name, s.guards_required,
              asgCount [⟨1, "John Smith", "07700 123456", "LE1 1AA", "SIA123456", 48,
                ["Monday", "Tuesday"], true⟩] out.schedule d s.id⟩]
          else []) ∧
        ((asgCount [⟨1, "John Smith", "07700 123456", "LE1 1AA", "SIA123456", 48,
            ["Monday", "Tuesday"], true⟩] out.schedule d s.id < s.guards_required) ↔
          ∃ u ∈ out.unassigned_shifts, u.day = d ∧ u.site = s.name)) ∧
      out.alerts.filter (fun a => a.type == "error") =
        out.unassigned_shifts.map errAlertOf :=
  claim_c3_understaffing
    [⟨1, "John Smith", "07700 123456", "LE1 1AA", "SIA123456", 48,
      ["Monday", "Tuesday"], true⟩]
    [⟨1, "Geddington-B", "Taz", "NN18", 2, "18:00", "06:00", ["Monday"]⟩]
    (by decide) (by decide) (by decide)
    (by intro s hs; fin_cases hs; with_unfolding_all decide)
    (by intro e he s hs; fin_cases he; fin_cases hs; decide)
    (by intro s hs s' hs'; fin_cases hs; fin_cases hs'; decide)

/-! ### Machinery for claim C8 -/

/-- The opportunity condition only looks at the schedule. -/
theorem oppCond_congr {st st' : GenState} {e : Employee} {p : String × String}
    (h : st'.schedule = st.schedule) : OppCond st' e p ↔ OppCond st e p := by
  unfold OppCond
  rw [h]

/-- Opportunity counting distributes over appending. -/
theorem oppCount_append (n lbl : String) (a b : List Opportunity) :
    oppCount n lbl (a ++ b) = oppCount n lbl a + oppCount n lbl b := by
  unfold oppCount
  rw [List.filter_append, List.length_append]

/-- A block of opportunities none of which carries the name and label
counts zero. -/
theorem oppCount_zero {n lbl : String} {os : List Opportunity}
    (h : ∀ o ∈ os, o.employee ≠ n ∨ o.day ≠ lbl) :
    oppCount n lbl os = 0 := by
  unfold oppCount
  rw [List.length_eq_zero]
  rw [List.filter_eq_nil_iff]
  intro o ho
  rcases h o ho with h1 | h1 <;> simp [h1]

/-- A block of opportunities all of which carry the name and label
counts its length. -/
theorem oppCount_all {n lbl : String} {os : List Opportunity}
    (h : ∀ o ∈ os, o.employee = n ∧ o.day = lbl) :
    oppCount n lbl os = os.length := by
  unfold oppCount
  congr 1
  rw [List.filter_eq_self]
  intro o ho
  simp [(h o ho).1, (h o ho).2]

/-- Distinct employees have distinct names when the input names are
duplicate-free. -/
theorem name_ne_of_ne {employees : List Employee}
    (hnames : (employees.map Employee.name).Nodup) {e1 e2 : Employee}
    (h1 : e1 ∈ employees) (h2 : e2 ∈ employees) (hne : e1 ≠ e2) :
    e1.name ≠ e2.name :=
  fun hc => hne (List.inj_on_of_nodup_map hnames h1 h2 hc)

/-- With unique ids, looking an employee's own id up in the list finds
that employee. -/
theorem find_id_self {employees : List Employee}
    (hids : (employees.map Employee.id).Nodup) {e : Employee}
    (he : e ∈ employees) :
    employees.find? (fun x => x.id == e.id) = some e := by
  induction employees with
  | nil => cases he
  | cons x xs ih =>
    rw [List.map_cons, List.nodup_cons] at hids
    by_cases hx : x.id = e.id
    · have hxe : x = e := by
        rcases List.mem_cons.mp he with rfl | he'
        · rfl
        · exact absurd (hx ▸ List.mem_map_of_mem Employee.id he') hids.1
      rw [List.find?_cons_of_pos]
      · rw [hxe]
      · simp [hx]
    · rw [List.find?_cons_of_neg]
      · rcases List.mem_cons.mp he with rfl | he'
        · exact absurd rfl hx
        · exact ih hids.2 he'
      · simp [hx]

/-- Exact effect of one pair check: the appended opportunities carry
the employee's name and the pair's label, exactly one is appended when
the detection condition holds, none otherwise. -/
theorem checkPair_effect {emp : Employee} {d1 d2 : String} {st st' : GenState}
    (h : checkPair emp d1 d2 st = some st') :
    ∃ os : List Opportunity,
      st'.opportunities_24hr = st.opportunities_24hr ++ os ∧
      st'.alerts = st.alerts ++ os.map oppAlertOf ∧
      (∀ o ∈ os, o.employee = emp.name ∧ o.day = d1 ++ "-" ++ d2) ∧
      (OppCond st emp (d1, d2) → os.length = 1) ∧
      (¬ OppCond st emp (d1, d2) → os = []) := by
  unfold checkPair at h
  split at h
  · rename_i today tomorrow hm1 hm2
    split at h
    · rename_i hend
      split at h
      · cases h
      · rename_i dist hdist
        split at h
        · rename_i hle
          cases h
          refine ⟨[⟨emp.name, d1 ++ "-" ++ d2, today.site_name, tomorrow.site_name, dist⟩],
            rfl, rfl, ?_, fun _ => rfl, ?_⟩
          · intro o ho
            rcases List.mem_singleton.mp ho with rfl
            exact ⟨rfl, rfl⟩
          · intro hn
            exact absurd ⟨today, tomorrow, dist, hm1, hm2, hend, hdist, hle⟩ hn
        · rename_i hle
          cases h
          refine ⟨[], by simp, by simp, fun o ho => absurd ho (List.not_mem_nil o), ?_,
            fun _ => rfl⟩
          rintro ⟨t, tm, dist', h1, h2, _, hd', hle'⟩
          rw [hm1] at h1
          rw [hm2] at h2
          cases List.singleton_inj.mp h1.symm
          cases List.singleton_inj.mp h2.symm
          rw [hdist] at hd'
          cases hd'
          exact absurd hle' hle
    · rename_i hend
      cases h
      refine ⟨[], by simp, by simp, fun o ho => absurd ho (List.not_mem_nil o), ?_,
        fun _ => rfl⟩
      rintro ⟨t, tm, dist', h1, h2, hend', _, _⟩
      rw [hm1] at h1
      rw [hm2] at h2
      cases List.singleton_inj.mp h1.symm
      cases List.singleton_inj.mp h2.symm
      exact absurd hend' hend
  · rename_i hno
    cases h
    refine ⟨[], by simp, by simp, fun o ho => absurd ho (List.not_mem_nil o), ?_,
      fun _ => rfl⟩
    rintro ⟨t, tm, dist', h1, h2, _, _, _⟩
    exact absurd (hno t tm h1 h2) not_false

/-- Exact effect of a run of pair checks with pairwise-distinct labels:
per pair, exactly one opportunity is appended iff the detection
condition held at entry. -/
theorem checkPairs_effect {emp : Employee} :
    ∀ (ps : List (String × String)) (st st' : GenState),
      (ps.map pairLabel).Nodup →
      checkPairs emp ps st = some st' →
      ∃ os : List Opportunity,
        st'.opportunities_24hr = st.opportunities_24hr ++ os ∧
        st'.alerts = st.alerts ++ os.map oppAlertOf ∧
        (∀ o ∈ os, o.employee = emp.name ∧ o.day ∈ ps.map pairLabel) ∧
        ∀ p ∈ ps,
          (OppCond st emp p → oppCount emp.name (pairLabel p) os = 1) ∧
          (¬ OppCond st emp p → oppCount emp.name (pairLabel p) os = 0) := by
  intro ps
  induction ps with
  | nil =>
    intro st st' _ h
    cases h
    exact ⟨[], by simp, by simp, fun o ho => absurd ho (List.not_mem_nil o),
      fun p hp => absurd hp (List.not_mem_nil p)⟩
  | cons p0 ps ih =>
    intro st st' hnd h
    rw [List.map_cons, List.nodup_cons] at hnd
    rw [checkPairs] at h
    split at h
    · cases h
    · rename_i st1 hp
      obtain ⟨os1, ho1, ha1, hf1, hc1, hc1n⟩ := checkPair_effect hp
      obtain ⟨hsch1, _, _, _, _⟩ := checkPair_state hp
      obtain ⟨os2, ho2, ha2, hf2, hc2⟩ := ih st1 st' hnd.2 h
      refine ⟨os1 ++ os2, ?_, ?_, ?_, ?_⟩
      · rw [ho2, ho1, List.append_assoc]
      · rw [ha2, ha1, List.map_append, List.append_assoc]
      · intro o ho
        rcases List.mem_append.mp ho with h' | h'
        · refine ⟨(hf1 o h').1, ?_⟩
          rw [List.map_cons, (hf1 o h').2]
          exact List.mem_cons_self _ _
        · refine ⟨(hf2 o h').1, ?_⟩
          rw [List.map_cons]
          exact List.mem_cons_of_mem _ (hf2 o h').2
      · intro p hpmem
        have hzero2nothead : ∀ q ∈ ps, oppCount emp.name (pairLabel q) os1 = 0 := by
          intro q hq
          refine oppCount_zero ?_
          intro o ho
          refine Or.inr ?_
          rw [(hf1 o ho).2]
          show pairLabel p0 ≠ pairLabel q
          intro hc
          exact hnd.1 (hc ▸ List.mem_map_of_mem pairLabel hq)
        have hzero1head : oppCount emp.name (pairLabel p0) os2 = 0 := by
          refine oppCount_zero ?_
          intro o ho
          refine Or.inr ?_
          intro hc
          exact hnd.1 (hc ▸ (hf2 o ho).2)
        rcases List.mem_cons.mp hpmem with rfl | hpmem'
        · constructor
          · intro hcond
            rw [oppCount_append, hzero1head, Nat.add_zero]
            rw [oppCount_all (fun o ho => (⟨(hf1 o ho).1, (hf1 o ho).2⟩ :
              o.employee = emp.name ∧ o.day = pairLabel p))]
            exact hc1 hcond
          · intro hncond
            rw [oppCount_append, hzero1head, Nat.add_zero, hc1n hncond]
            rfl
        · have htrans : OppCond st1 emp p ↔ OppCond st emp p := oppCond_congr hsch1
          constructor
          · intro hcond
            rw [oppCount_append, hzero2nothead p hpmem',
              (hc2 p hpmem').1 (htrans.mpr hcond), Nat.zero_add]
          · intro hncond
            rw [oppCount_append, hzero2nothead p hpmem',
              (hc2 p hpmem').2 (fun hc => hncond (htrans.mp hc)), Nat.zero_add]

/-- Exact effect of the employee loop of the opportunity pass: each
appended opportunity belongs to some listed employee whose id was
iterated, and per willing employee and day pair exactly one opportunity
is appended iff the detection condition held at entry. -/
theorem identifyEmps_effect {employees : List Employee}
    (hids : (employees.map Employee.id).Nodup)
    (hnames : (employees.map Employee.name).Nodup) :
    ∀ (keys : List Nat) (st st' : GenState),
      keys.Nodup →
      identifyEmps employees keys st = some st' →
      ∃ os : List Opportunity,
        st'.opportunities_24hr = st.opportunities_24hr ++ os ∧
        st'.alerts = st.alerts ++ os.map oppAlertOf ∧
        (∀ o ∈ os, ∃ e2 ∈ employees, o.employee = e2.name ∧ e2.id ∈ keys) ∧
        ∀ e ∈ employees, e.willing_24hr = true → e.id ∈ keys →
          ∀ p ∈ dayPairs,
            (OppCond st e p → oppCount e.name (pairLabel p) os = 1) ∧
            (¬ OppCond st e p → oppCount e.name (pairLabel p) os = 0) := by
  intro keys
  induction keys with
  | nil =>
    intro st st' _ h
    cases h
    exact ⟨[], by simp, by simp, fun o ho => absurd ho (List.not_mem_nil o),
      fun e _ _ hmem => absurd hmem (List.not_mem_nil e.id)⟩
  | cons i keys ih =>
    intro st st' hknd h
    obtain ⟨hik, hknd'⟩ := List.nodup_cons.mp hknd
    rw [identifyEmps] at h
    split at h
    · rename_i hf
      obtain ⟨os, ho, ha, hprov, hcnt⟩ := ih st st' hknd' h
      refine ⟨os, ho, ha, ?_, ?_⟩
      · intro o hoo
        obtain ⟨e2, he2, hn2, hk2⟩ := hprov o hoo
        exact ⟨e2, he2, hn2, List.mem_cons_of_mem i hk2⟩
      · intro e he hw hmem p hp
        rcases List.mem_cons.mp hmem with hei | hmem'
        · have hnone := List.find?_eq_none.mp hf e he
          simp only [hei, beq_self_eq_true] at hnone
          exact absurd trivial hnone
        · exact hcnt e he hw hmem' p hp
    · rename_i emp hf
      have hemp_mem : emp ∈ employees := List.mem_of_find?_eq_some hf
      have hemp_id : emp.id = i := by
        have := List.find?_some hf
        simpa using this
      split at h
      · rename_i hw
        split at h
        · cases h
        · rename_i st1 hcp
          obtain ⟨os1, ho1, ha1, hf1, hc1⟩ := checkPairs_effect dayPairs st st1 (by decide) hcp
          obtain ⟨hsch1, _, _, _, _⟩ := checkPairs_state dayPairs st st1 hcp
          obtain ⟨os2, ho2, ha2, hprov2, hcnt2⟩ := ih st1 st' hknd' h
          refine ⟨os1 ++ os2, ?_, ?_, ?_, ?_⟩
          · rw [ho2, ho1, List.append_assoc]
          · rw [ha2, ha1, List.map_append, List.append_assoc]
          · intro o hoo
            rcases List.mem_append.mp hoo with h' | h'
            · exact ⟨emp, hemp_mem, (hf1 o h').1,
                by rw [hemp_id]; exact List.mem_cons_self i keys⟩
            · obtain ⟨e2, he2, hn2, hk2⟩ := hprov2 o h'
              exact ⟨e2, he2, hn2, List.mem_cons_of_mem i hk2⟩
          · intro e he hwe hmem p hp
            rcases List.mem_cons.mp hmem with hei | hmem'
            · have hee : e = emp :=
                employee_eq_of_id_eq hids he hemp_mem (by rw [hei, hemp_id])
              have hz2 : oppCount e.name (pairLabel p) os2 = 0 := by
                refine oppCount_zero ?_
                intro o hoo
                obtain ⟨e2, he2, hn2, hk2⟩ := hprov2 o hoo
                refine Or.inl ?_
                rw [hn2]
                intro hc
                have he2e : e2 = e := List.inj_on_of_nodup_map hnames he2 he hc
                rw [he2e, hei] at hk2
                exact hik hk2
              constructor
              · intro hcond
                rw [oppCount_append, hz2, Nat.add_zero, hee]
                exact (hc1 p hp).1 (by rw [← hee]; exact hcond)
              · intro hncond
                rw [oppCount_append, hz2, Nat.add_zero, hee]
                exact (hc1 p hp).2 (by rw [← hee]; exact hncond)
            · have hne : e ≠ emp := by
                intro hc
                rw [hc, hemp_id] at hmem'
                exact hik hmem'
              have hz1 : oppCount e.name (pairLabel p) os1 = 0 := by
                refine oppCount_zero ?_
                intro o hoo
                refine Or.inl ?_
                rw [(hf1 o hoo).1]
                exact name_ne_of_ne hnames hemp_mem he (fun hc => hne hc.symm)
              have htrans : OppCond st1 e p ↔ OppCond st e p := oppCond_congr hsch1
              constructor
              · intro hcond
                rw [oppCount_append, hz1, Nat.zero_add]
                exact (hcnt2 e he hwe hmem' p hp).1 (htrans.mpr hcond)
              · intro hncond
                rw [oppCount_append, hz1, Nat.zero_add]
                exact (hcnt2 e he hwe hmem' p hp).2 (fun hc => hncond (htrans.mp hc))
      · rename_i hw
        obtain ⟨os, ho, ha, hprov, hcnt⟩ := ih st st' hknd' h
        refine ⟨os, ho, ha, ?_, ?_⟩
        · intro o hoo
          obtain ⟨e2, he2, hn2, hk2⟩ := hprov o hoo
          exact ⟨e2, he2, hn2, List.mem_cons_of_mem i hk2⟩
        · intro e he hwe hmem p hp
          rcases List.mem_cons.mp hmem with hei | hmem'
          · have hee : e = emp :=
              employee_eq_of_id_eq hids he hemp_mem (by rw [hei, hemp_id])
            rw [hee] at hwe
            exact absurd hwe hw
          · exact hcnt e he hwe hmem' p hp

/-! ### Claim C8 — 24-hour opportunity detection -/

/-- C8: for unique employee ids and names, a completed detection pass
leaves the schedule and the hours ledger (and the unassigned list)
unchanged and only appends data: one opportunity together with its one
success alert (the appended alerts are exactly the appended
opportunities' alerts, in order) is recorded for a willing employee and
a consecutive-day pair exactly when both days hold exactly one
assignment each, the first day's end-time string equals the second
day's start-time string, and the estimated distance between the two
sites is at most 30; the pair list covers Monday–Tuesday through
Saturday–Sunday only. -/
theorem claim_c8_opportunities :
    ∀ (employees : List Employee) (st st' : GenState),
      (employees.map Employee.id).Nodup →
      (employees.map Employee.name).Nodup →
      identify_24hr_opportunities employees st = some st' →
      st'.schedule = st.schedule ∧
      st'.employee_hours = st.employee_hours ∧
      st'.unassigned_shifts = st.unassigned_shifts ∧
      ∃ os : List Opportunity,
        st'.opportunities_24hr = st.opportunities_24hr ++ os ∧
        st'.alerts = st.alerts ++ os.map oppAlertOf ∧
        ∀ e ∈ employees, e.willing_24hr = true → ∀ p ∈ dayPairs,
          (OppCond st e p → oppCount e.name (pairLabel p) os = 1) ∧
          (¬ OppCond st e p → oppCount e.name (pairLabel p) os = 0) := by
  intro employees st st' hids hnames h
  obtain ⟨hs, hh, hu, _, _⟩ := identifyEmps_state (empKeys employees) st st' h
  obtain ⟨os, ho, ha, _, hcnt⟩ := identifyEmps_effect hids hnames (empKeys employees)
    st st' (List.nodup_dedup _) h
  exact ⟨hs, hh, hu, os, ho, ha, fun e he hw p hp =>
    hcnt e he hw (List.mem_dedup.mpr (List.mem_map_of_mem Employee.id he)) p hp⟩

/-- Witness for C8: a willing employee with touching Monday/Tuesday
shifts at nearby sites; the detector appends exactly the expected
opportunity and its success alert and changes nothing else. -/
theorem claim_c8_opportunities_witness :
    wStateOut.schedule = wState.schedule ∧
    wStateOut.employee_hours = wState.employee_hours ∧
    wStateOut.unassigned_shifts = wState.unassigned_shifts ∧
    ∃ os : List Opportunity,
      wStateOut.opportunities_24hr = wState.opportunities_24hr ++ os ∧
      wStateOut.alerts = wState.alerts ++ os.map oppAlertOf ∧
      ∀ e ∈ [wEmp], e.willing_24hr = true → ∀ p ∈ dayPairs,
        (OppCond wState e p → oppCount e.name (pairLabel p) os = 1) ∧
        (¬ OppCond wState e p → oppCount e.name (pairLabel p) os = 0) :=
  claim_c8_opportunities [wEmp] wState wStateOut (by decide) (by decide) rfl
